import Mathlib

/-!
# Hash-linked ledger: blocks, proof-of-work mining, chain validation

A shallow embedding of `blockchaiun_simulation.js` (the basic chain),
`mining_simulation.js` (the chain with proof-of-work) and the three selections
of `concensus_demo.js`.

Modelling conventions.

* `index` and `nonce` are JavaScript numbers holding non-negative integers. They
  are natural numbers here, of which the Number values are those a double holds
  exactly (`IsNumber`); `increment` is `n++` on them and `numberText` their
  text in string concatenation (Number::toString).
* `timestamp`, `previousHash` and `hash` are strings.
* `data` is a JavaScript value; `JSValue` covers the JSON-like fragment
  (undefined, null, booleans, integral numbers, NaN, strings, arrays and plain
  objects) and `JSValue.stringify` follows `JSON.stringify` on it.
* `sha256` is the digest computed by
  `crypto.createHash("sha256").update(text).digest("hex")`: SHA-256 of the UTF-8
  encoding of the text, as lowercase hexadecimal.
* `new Date().toISOString()` is an input of the constructors (`now`).
* The values drawn with `Math.floor(Math.random() * ...)` in the consensus
  selections are inputs; a selection returns its `selected` candidate.
* Block objects are kept by reference in `Basic.Store` and `Mining.Store`:
  `heap r` is the object behind the reference `r` and the array `chain` holds
  references, so that `Store.addBlock` assigns to the object it is handed and
  pushes that very object, also when it is already stored in the chain.
* `Basic.Blockchain` and `Mining.Blockchain` hold the blocks of a chain as
  values. Their `addBlock` is what the method does to these contents when the
  object it is handed is not stored in the chain (`basic_store_addBlock_fresh`,
  `mining_store_addBlock_fresh`).
* `console.log` output and the `performance.now()` timing are not modelled.
* The `while` loop of `mineBlock` need not terminate; it is run with a bound on
  the number of iterations and yields `none` when the bound is exhausted.
-/

namespace Ledger

/-! ## SHA-256 -/

namespace Sha256

/-- Round constants of SHA-256. -/
def roundConstants : List Nat := [
  0x428a2f98, 0x71374491, 0xb5c0fbcf, 0xe9b5dba5, 0x3956c25b, 0x59f111f1,
  0x923f82a4, 0xab1c5ed5, 0xd807aa98, 0x12835b01, 0x243185be, 0x550c7dc3,
  0x72be5d74, 0x80deb1fe, 0x9bdc06a7, 0xc19bf174, 0xe49b69c1, 0xefbe4786,
  0x0fc19dc6, 0x240ca1cc, 0x2de92c6f, 0x4a7484aa, 0x5cb0a9dc, 0x76f988da,
  0x983e5152, 0xa831c66d, 0xb00327c8, 0xbf597fc7, 0xc6e00bf3, 0xd5a79147,
  0x06ca6351, 0x14292967, 0x27b70a85, 0x2e1b2138, 0x4d2c6dfc, 0x53380d13,
  0x650a7354, 0x766a0abb, 0x81c2c92e, 0x92722c85, 0xa2bfe8a1, 0xa81a664b,
  0xc24b8b70, 0xc76c51a3, 0xd192e819, 0xd6990624, 0xf40e3585, 0x106aa070,
  0x19a4c116, 0x1e376c08, 0x2748774c, 0x34b0bcb5, 0x391c0cb3, 0x4ed8aa4a,
  0x5b9cca4f, 0x682e6ff3, 0x748f82ee, 0x78a5636f, 0x84c87814, 0x8cc70208,
  0x90befffa, 0xa4506ceb, 0xbef9a3f7, 0xc67178f2]

/-- Rotation of a 32-bit word to the right. -/
def rotr (x n : Nat) : Nat := ((x >>> n) ||| (x <<< (32 - n))) % 2 ^ 32

/-- UTF-8 bytes of one code point. -/
def utf8 (c : Nat) : List Nat :=
  if c < 0x80 then [c]
  else if c < 0x800 then [0xC0 + c / 64, 0x80 + c % 64]
  else if c < 0x10000 then [0xE0 + c / 4096, 0x80 + (c / 64) % 64, 0x80 + c % 64]
  else [0xF0 + c / 262144, 0x80 + (c / 4096) % 64, 0x80 + (c / 64) % 64, 0x80 + c % 64]

/-- UTF-8 bytes of a text. -/
def bytesOf (s : String) : List Nat := s.data.flatMap fun c => utf8 c.toNat

/-- Message padding: a one bit, zeros up to 56 modulo 64 bytes, and the length in
bits as a 64-bit big-endian number. -/
def padded (bs : List Nat) : List Nat :=
  let l := bs.length
  let z := (55 + 64 - l % 64) % 64
  bs ++ 0x80 :: List.replicate z 0 ++
    (List.range 8).map fun i => (l * 8) >>> (8 * (7 - i)) % 256

/-- Big-endian 32-bit words of a byte list, `n` of them. -/
def words : Nat → List Nat → List Nat
  | 0, _ => []
  | n + 1, a :: b :: c :: d :: r => (a <<< 24 ||| b <<< 16 ||| c <<< 8 ||| d) :: words n r
  | _ + 1, _ => []

/-- Message schedule, newest word first: `n` more words are added to `w`. -/
def extend : Nat → List Nat → List Nat
  | 0, w => w
  | n + 1, w =>
    match w with
    | _ :: w2 :: _ :: _ :: _ :: _ :: w7 :: _ :: _ :: _ :: _ :: _ :: _ :: _ :: w15 :: w16 :: _ =>
      let s0 := rotr w15 7 ^^^ rotr w15 18 ^^^ (w15 >>> 3)
      let s1 := rotr w2 17 ^^^ rotr w2 19 ^^^ (w2 >>> 10)
      extend n (((w16 + s0 + w7 + s1) % 2 ^ 32) :: w)
    | _ => w

/-- Working variables of the compression function. -/
structure Vars where
  a : Nat
  b : Nat
  c : Nat
  d : Nat
  e : Nat
  f : Nat
  g : Nat
  h : Nat

/-- One round of the compression function. -/
def round (s : Vars) (k w : Nat) : Vars :=
  let S1 := rotr s.e 6 ^^^ rotr s.e 11 ^^^ rotr s.e 25
  let ch := (s.e &&& s.f) ^^^ ((2 ^ 32 - 1 - s.e) &&& s.g)
  let t1 := (s.h + S1 + ch + k + w) % 2 ^ 32
  let S0 := rotr s.a 2 ^^^ rotr s.a 13 ^^^ rotr s.a 22
  let maj := (s.a &&& s.b) ^^^ (s.a &&& s.c) ^^^ (s.b &&& s.c)
  let t2 := (S0 + maj) % 2 ^ 32
  ⟨(t1 + t2) % 2 ^ 32, s.a, s.b, s.c, (s.d + t1) % 2 ^ 32, s.e, s.f, s.g⟩

/-- The 64 rounds over the constants and the message schedule. -/
def rounds : Vars → List Nat → List Nat → Vars
  | s, k :: ks, w :: ws => rounds (round s k w) ks ws
  | s, _, _ => s

/-- Compression of one 16-word chunk into the hash state. -/
def compress (s : Vars) (chunk : List Nat) : Vars :=
  let w := (extend 48 chunk.reverse).reverse
  let t := rounds s roundConstants w
  ⟨(s.a + t.a) % 2 ^ 32, (s.b + t.b) % 2 ^ 32, (s.c + t.c) % 2 ^ 32, (s.d + t.d) % 2 ^ 32,
   (s.e + t.e) % 2 ^ 32, (s.f + t.f) % 2 ^ 32, (s.g + t.g) % 2 ^ 32, (s.h + t.h) % 2 ^ 32⟩

/-- Compression of `n` consecutive chunks. -/
def chunks : Nat → Vars → List Nat → Vars
  | 0, s, _ => s
  | n + 1, s, ws => chunks n (compress s (ws.take 16)) (ws.drop 16)

/-- Initial hash state. -/
def initial : Vars :=
  ⟨0x6a09e667, 0xbb67ae85, 0x3c6ef372, 0xa54ff53a, 0x510e527f, 0x9b05688c, 0x1f83d9ab, 0x5be0cd19⟩

/-- Lowercase hexadecimal digit. -/
def hexDigit (n : Nat) : Char := Char.ofNat (if n < 10 then 48 + n else 87 + n)

/-- Eight hexadecimal digits of a 32-bit word. -/
def hex32 (w : Nat) : List Char :=
  (List.range 8).map fun i => hexDigit ((w >>> (4 * (7 - i))) % 16)

end Sha256

/-- The digest `crypto.createHash("sha256").update(s).digest("hex")`. -/
def sha256 (s : String) : String :=
  let p := Sha256.padded (Sha256.bytesOf s)
  let n := p.length / 64
  let r := Sha256.chunks n Sha256.initial (Sha256.words (16 * n) p)
  ⟨Sha256.hex32 r.a ++ Sha256.hex32 r.b ++ Sha256.hex32 r.c ++ Sha256.hex32 r.d ++
    Sha256.hex32 r.e ++ Sha256.hex32 r.f ++ Sha256.hex32 r.g ++ Sha256.hex32 r.h⟩

/-! ## JavaScript numbers that hold non-negative integers -/

/-- The number of binary digits of `x` beyond the 53 of a significand: the least
`e` with `x / 2 ^ e < 2 ^ 53`, searched for `fuel` steps. -/
def excessBits : Nat → Nat → Nat
  | 0, _ => 0
  | fuel + 1, x => if x < 2 ^ 53 then 0 else excessBits fuel (x / 2) + 1

/-- The Number value (an IEEE 754 double) nearest to the integer `x`, ties to the
even significand; the integers below `2 ^ 53` are Number values themselves. -/
def roundToDouble (x : Nat) : Nat :=
  if x < 2 ^ 53 then x
  else
    let e := excessBits x x
    let q := x / 2 ^ e
    let r := x % 2 ^ e
    if 2 * r < 2 ^ e then q * 2 ^ e
    else if 2 ^ e < 2 * r then (q + 1) * 2 ^ e
    else if q % 2 = 0 then q * 2 ^ e
    else (q + 1) * 2 ^ e

/-- The integer `x` is a Number value: a double holds it exactly. -/
def IsNumber (x : Nat) : Prop :=
  roundToDouble x = x ∧ x < 2 ^ 1024

/-- The value of `n + 1` (the effect of `n++`) on a Number `n`: exact below
`2 ^ 53`; from there on `n + 1` lies half-way between `n` and `n + 2` up to
`2 ^ 54`, where the even significand wins, and nearest to `n` beyond. -/
def increment (n : Nat) : Nat :=
  if n < 2 ^ 53 then n + 1
  else if n < 2 ^ 54 ∧ n % 4 = 2 then n + 2
  else n

/-- The number of decimal digits of `x`. -/
def digitCount (x : Nat) : Nat := (Nat.toDigits 10 x).length

/-- The integer with `k` significant digits followed by zeros, of as many digits
as `len`, that converts to the Number `x` and is nearest to it (of two equally
near the one with the even last digit), when there is one. -/
def shortestAt (x len k : Nat) : Option Nat :=
  let t := len - k
  let lo := x / 10 ^ t
  let okLo : Bool := roundToDouble (lo * 10 ^ t) = x
  let okHi : Bool := roundToDouble ((lo + 1) * 10 ^ t) = x
  if okLo && okHi then
    if x - lo * 10 ^ t < (lo + 1) * 10 ^ t - x then some (lo * 10 ^ t)
    else if (lo + 1) * 10 ^ t - x < x - lo * 10 ^ t then some ((lo + 1) * 10 ^ t)
    else if lo % 2 = 0 then some (lo * 10 ^ t)
    else some ((lo + 1) * 10 ^ t)
  else if okLo then some (lo * 10 ^ t)
  else if okHi then some ((lo + 1) * 10 ^ t)
  else none

/-- The search of `shortestDecimal` over the numbers of significant digits
`k, k + 1, ...`, `fuel` of them. -/
def shortestFrom (x len : Nat) : Nat → Nat → Nat
  | 0, _ => x
  | fuel + 1, k =>
    match shortestAt x len k with
    | some v => v
    | none => shortestFrom x len fuel (k + 1)

/-- The integer with the fewest significant digits that converts to the Number
`x`, the one Number::toString prints (17 significant digits always suffice). -/
def shortestDecimal (x : Nat) : Nat :=
  shortestFrom x (digitCount x) 17 1

/-- The decimal digits of `v` without its trailing zeros. -/
def significantDigits (v : Nat) : List Char :=
  ((Nat.toDigits 10 v).reverse.dropWhile fun c => c = '0').reverse

/-- The significant digits as a mantissa: a point after the first digit when
more digits follow. -/
def mantissa : List Char → List Char
  | [] => []
  | [d] => [d]
  | d :: rest => d :: '.' :: rest

/-- The exponential form Number::toString gives an integer `v` of more than 21
digits: first digit, the further significant digits after a point, `e+` and the
exponent. -/
def exponentText (v : Nat) : String :=
  ⟨mantissa (significantDigits v) ++ 'e' :: '+' :: Nat.toDigits 10 (digitCount v - 1)⟩

/-- The text of a non-negative integer Number `x` in string concatenation and in
`JSON.stringify` (Number::toString, radix 10): all its digits below `2 ^ 53`,
and from there on the shortest decimal that converts to `x`, in exponential form
from 21 digits on. -/
def numberText (x : Nat) : String :=
  if x < 2 ^ 53 then toString x
  else
    let v := shortestDecimal x
    if digitCount v ≤ 21 then toString v else exponentText v

/-! ## JavaScript values and `JSON.stringify` -/

/-- The JSON-like fragment of JavaScript values a block payload is taken from.
The properties of an object are listed in enumeration order. -/
inductive JSValue where
  | undefined
  | null
  | bool (b : Bool)
  | num (n : Int)
  | nan
  | str (s : String)
  | arr (elems : List JSValue)
  | obj (props : List (String × JSValue))

/-- Four lowercase hexadecimal digits of a code unit. -/
def hex4 (n : Nat) : List Char :=
  [Sha256.hexDigit (n / 4096 % 16), Sha256.hexDigit (n / 256 % 16),
   Sha256.hexDigit (n / 16 % 16), Sha256.hexDigit (n % 16)]

/-- Escape of one character inside a JSON string. -/
def escapeChar (c : Char) : List Char :=
  if c = Char.ofNat 34 then [Char.ofNat 92, Char.ofNat 34]
  else if c = Char.ofNat 92 then [Char.ofNat 92, Char.ofNat 92]
  else if c = Char.ofNat 8 then [Char.ofNat 92, 'b']
  else if c = Char.ofNat 9 then [Char.ofNat 92, 't']
  else if c = Char.ofNat 10 then [Char.ofNat 92, 'n']
  else if c = Char.ofNat 12 then [Char.ofNat 92, 'f']
  else if c = Char.ofNat 13 then [Char.ofNat 92, 'r']
  else if c.toNat < 32 then Char.ofNat 92 :: 'u' :: hex4 c.toNat
  else [c]

/-- The quoted JSON form of a string (QuoteJSONString). -/
def quoteJSONString (s : String) : String :=
  ⟨Char.ofNat 34 :: (s.data.flatMap escapeChar ++ [Char.ofNat 34])⟩

mutual
/-- The result of `JSON.stringify(v)`; `none` stands for the result `undefined`. -/
def JSValue.stringify : JSValue → Option String
  | .undefined => none
  | .null => some "null"
  | .bool b => some (if b then "true" else "false")
  | .num n => some (if n < 0 then "-" ++ numberText n.natAbs else numberText n.toNat)
  | .nan => some "null"
  | .str s => some (quoteJSONString s)
  | .arr elems => some ("[" ++ ",".intercalate (JSValue.stringifyElems elems) ++ "]")
  | .obj props => some ("\x7b" ++ ",".intercalate (JSValue.stringifyProps props) ++ "\x7d")
/-- Texts of the elements of an array: an element without a JSON text is `null`. -/
def JSValue.stringifyElems : List JSValue → List String
  | [] => []
  | v :: rest => (JSValue.stringify v).getD "null" :: JSValue.stringifyElems rest
/-- Texts of the properties of an object: a property without a JSON text is left out. -/
def JSValue.stringifyProps : List (String × JSValue) → List String
  | [] => []
  | (k, v) :: rest =>
    match JSValue.stringify v with
    | none => JSValue.stringifyProps rest
    | some t => (quoteJSONString k ++ ":" ++ t) :: JSValue.stringifyProps rest
end

/-- The text `"" + JSON.stringify(v)` that string concatenation produces. -/
def JSValue.jsonText (v : JSValue) : String :=
  (JSValue.stringify v).getD "undefined"

/-! ## Blocks (class `Block`, the same in both files up to `mineBlock`) -/

/-- The fields of a `Block` object. -/
structure Block where
  index : Nat
  timestamp : String
  data : JSValue
  previousHash : String
  nonce : Nat
  hash : String

/-- The text handed to `update` in `calculateHash`:
`index + timestamp + JSON.stringify(data) + previousHash + nonce`. -/
def Block.hashInput (b : Block) : String :=
  numberText b.index ++ b.timestamp ++ b.data.jsonText ++ b.previousHash ++ numberText b.nonce

/-- The method `calculateHash`: the SHA-256 digest of the five fields. -/
def Block.calculateHash (b : Block) : String :=
  sha256 b.hashInput

/-- The constructor of `Block`: the five fields are stored and `hash` is computed
from them. The defaults of the source are `previousHash = ""` and `nonce = 0`. -/
def Block.construct (index : Nat) (timestamp : String) (data : JSValue)
    (previousHash : String) (nonce : Nat) : Block :=
  let b : Block := ⟨index, timestamp, data, previousHash, nonce, ""⟩
  { b with hash := b.calculateHash }

/-- The string `c.repeat(n)`. -/
def repeatChar (c : Char) (n : Nat) : String := ⟨List.replicate n c⟩

/-- The test `s.startsWith(p)`. -/
def startsWith (s p : String) : Bool := p.data.isPrefixOf s.data

/-- One iteration of the loop of `mineBlock`: `this.nonce++` and then
`this.hash = this.calculateHash()`. -/
def Block.mineStep (b : Block) : Block :=
  let b1 : Block := { b with nonce := increment b.nonce }
  { b1 with hash := b1.calculateHash }

/-- The method `mineBlock(difficulty)` of `mining_simulation.js`, run for at most
`fuel` iterations of its loop
`while (!this.hash.startsWith("0".repeat(difficulty)))`;
`none` when the loop has not ended by then. -/
def Block.mineBlock (difficulty : Nat) : Nat → Block → Option Block
  | 0, b => if startsWith b.hash (repeatChar '0' difficulty) then some b else none
  | fuel + 1, b =>
    if startsWith b.hash (repeatChar '0' difficulty) then some b
    else Block.mineBlock difficulty fuel b.mineStep

/-- Assignment `blocks[i].data = d` on the contents of a chain, as the demo does
to tamper. -/
def setData (chain : List Block) (i : Nat) (d : JSValue) : List Block :=
  chain.modify (fun b => { b with data := d }) i

/-- Assignment `blocks[i].hash = blocks[i].calculateHash()` on the contents of a
chain. -/
def rehash (chain : List Block) (i : Nat) : List Block :=
  chain.modify (fun b => { b with hash := b.calculateHash }) i

/-! ## The basic chain (`blockchaiun_simulation.js`) -/

namespace Basic

/-- The contents of a `Blockchain` object: its blocks, in order, as values. -/
structure Blockchain where
  chain : List Block

/-- The method `createGenesisBlock`; `now` is `new Date().toISOString()`. -/
def createGenesisBlock (now : String) : Block :=
  Block.construct 0 now (JSValue.str "Genesis Block") "0" 0

/-- The constructor of `Blockchain`. -/
def Blockchain.construct (now : String) : Blockchain :=
  ⟨[createGenesisBlock now]⟩

/-- The method `getLatestBlock`: `chain[chain.length - 1]`, `none` for `undefined`. -/
def Blockchain.getLatestBlock (bc : Blockchain) : Option Block :=
  bc.chain[bc.chain.length - 1]?

/-- The method `addBlock` on the contents of the chain, for a block object
`newBlock` that is not stored in the chain (on objects: `Store.addBlock`); `none`
when reading `.hash` of `undefined` throws. -/
def Blockchain.addBlock (bc : Blockchain) (newBlock : Block) : Option Blockchain :=
  match bc.getLatestBlock with
  | none => none
  | some latest =>
    let b1 : Block := { newBlock with previousHash := latest.hash }
    let b2 : Block := { b1 with hash := b1.calculateHash }
    some { bc with chain := bc.chain ++ [b2] }

/-- The loop of `isChainValid` from index `i` on, for at most `fuel` iterations. -/
def isChainValidLoop (chain : List Block) : Nat → Nat → Bool
  | 0, _ => true
  | fuel + 1, i =>
    if i < chain.length then
      match chain[i]?, chain[i - 1]? with
      | some currentBlock, some previousBlock =>
        if currentBlock.hash ≠ currentBlock.calculateHash then false
        else if currentBlock.previousHash ≠ previousBlock.hash then false
        else isChainValidLoop chain fuel (i + 1)
      | _, _ => false
    else true

/-- The method `isChainValid`. -/
def Blockchain.isChainValid (bc : Blockchain) : Bool :=
  isChainValidLoop bc.chain bc.chain.length 1

/-- Blocks appended one after the other with `addBlock`. -/
def Blockchain.addBlocks (bc : Blockchain) : List Block → Option Blockchain
  | [] => some bc
  | b :: rest =>
    match bc.addBlock b with
    | none => none
    | some bc1 => Blockchain.addBlocks bc1 rest

end Basic

/-! ## The chain with proof-of-work (`mining_simulation.js`) -/

namespace Mining

/-- The contents of a `Blockchain` object: its blocks, in order, as values, and
the difficulty. -/
structure Blockchain where
  chain : List Block
  difficulty : Nat

/-- The method `createGenesisBlock`; `now` is `new Date().toISOString()`. -/
def createGenesisBlock (now : String) : Block :=
  Block.construct 0 now (JSValue.str "Genesis Block") "0" 0

/-- The constructor of `Blockchain` (the default difficulty of the source is 4). -/
def Blockchain.construct (now : String) (difficulty : Nat) : Blockchain :=
  ⟨[createGenesisBlock now], difficulty⟩

/-- The method `getLatestBlock`: `chain[chain.length - 1]`, `none` for `undefined`. -/
def Blockchain.getLatestBlock (bc : Blockchain) : Option Block :=
  bc.chain[bc.chain.length - 1]?

/-- The method `addBlock` on the contents of the chain, for a block object
`newBlock` that is not stored in the chain (on objects: `Store.addBlock`), each
mining loop bounded by `fuel` iterations; `none` when reading `.hash` of
`undefined` throws or when mining has not ended. -/
def Blockchain.addBlock (fuel : Nat) (bc : Blockchain) (newBlock : Block) :
    Option Blockchain :=
  match bc.getLatestBlock with
  | none => none
  | some latest =>
    match Block.mineBlock bc.difficulty fuel { newBlock with previousHash := latest.hash } with
    | none => none
    | some mined => some { bc with chain := bc.chain ++ [mined] }

/-- The loop of `isChainValid` from index `i` on, for at most `fuel` iterations. -/
def isChainValidLoop (chain : List Block) (difficulty : Nat) : Nat → Nat → Bool
  | 0, _ => true
  | fuel + 1, i =>
    if i < chain.length then
      match chain[i]?, chain[i - 1]? with
      | some currentBlock, some previousBlock =>
        if currentBlock.hash ≠ currentBlock.calculateHash then false
        else if currentBlock.previousHash ≠ previousBlock.hash then false
        else if !startsWith currentBlock.hash (repeatChar '0' difficulty) then false
        else isChainValidLoop chain difficulty fuel (i + 1)
      | _, _ => false
    else true

/-- The method `isChainValid`. -/
def Blockchain.isChainValid (bc : Blockchain) : Bool :=
  isChainValidLoop bc.chain bc.difficulty bc.chain.length 1

/-- Blocks appended one after the other with `addBlock`. -/
def Blockchain.addBlocks (fuel : Nat) (bc : Blockchain) : List Block → Option Blockchain
  | [] => some bc
  | b :: rest =>
    match bc.addBlock fuel b with
    | none => none
    | some bc1 => Blockchain.addBlocks fuel bc1 rest

end Mining

/-! ## Block objects and references

`addBlock` assigns to the object it is handed and pushes that very object. The
objects of a run are kept by reference here: `heap r` is the block object behind
the reference `r`, and the array `chain` of a `Blockchain` holds references. -/

namespace Basic

/-- The objects of a run of `blockchaiun_simulation.js`: the block object behind
each reference, and the array `chain` of the `Blockchain`. -/
structure Store where
  heap : Nat → Block
  chain : List Nat

/-- The blocks of the chain, in order, as the objects stand. -/
def Store.blocks (s : Store) : List Block := s.chain.map s.heap

/-- The constructor of `Blockchain`: a new genesis object, behind the reference
`g`, is the one element of `chain`. -/
def Store.construct (heap : Nat → Block) (g : Nat) (now : String) : Store :=
  ⟨fun r => if r = g then createGenesisBlock now else heap r, [g]⟩

/-- The method `getLatestBlock`: the reference `chain[chain.length - 1]`, `none`
for `undefined`. -/
def Store.getLatestBlock (s : Store) : Option Nat :=
  s.chain[s.chain.length - 1]?

/-- The method `addBlock` on the object behind `newBlock`: its `previousHash` and
then its `hash` are assigned, and the reference is pushed; `none` when reading
`.hash` of `undefined` throws. -/
def Store.addBlock (s : Store) (newBlock : Nat) : Option Store :=
  match s.getLatestBlock with
  | none => none
  | some latest =>
    let heap1 : Nat → Block := fun r =>
      if r = newBlock then { s.heap newBlock with previousHash := (s.heap latest).hash }
      else s.heap r
    let heap2 : Nat → Block := fun r =>
      if r = newBlock then { heap1 newBlock with hash := (heap1 newBlock).calculateHash }
      else heap1 r
    some ⟨heap2, s.chain ++ [newBlock]⟩

/-- The method `isChainValid`, which reads the blocks of the chain. -/
def Store.isChainValid (s : Store) : Bool :=
  isChainValidLoop s.blocks s.blocks.length 1

/-- Objects appended one after the other with `addBlock`. -/
def Store.addBlocks (s : Store) : List Nat → Option Store
  | [] => some s
  | r :: rest =>
    match s.addBlock r with
    | none => none
    | some s1 => Store.addBlocks s1 rest

/-- The assignment `chain[i].data = d`: the object stored at index `i` is written
in place; `none` when `chain[i]` is `undefined` and the assignment throws. -/
def Store.setData (s : Store) (i : Nat) (d : JSValue) : Option Store :=
  match s.chain[i]? with
  | none => none
  | some r => some ⟨fun x => if x = r then { s.heap r with data := d } else s.heap x, s.chain⟩

/-- The assignment `chain[i].hash = chain[i].calculateHash()` on the object stored
at index `i`; `none` when `chain[i]` is `undefined`. -/
def Store.rehash (s : Store) (i : Nat) : Option Store :=
  match s.chain[i]? with
  | none => none
  | some r =>
    some ⟨fun x => if x = r then { s.heap r with hash := (s.heap r).calculateHash }
      else s.heap x, s.chain⟩

end Basic

namespace Mining

/-- The objects of a run of `mining_simulation.js`: the block object behind each
reference, and the array `chain` and the difficulty of the `Blockchain`. -/
structure Store where
  heap : Nat → Block
  chain : List Nat
  difficulty : Nat

/-- The blocks of the chain, in order, as the objects stand. -/
def Store.blocks (s : Store) : List Block := s.chain.map s.heap

/-- The constructor of `Blockchain`: a new genesis object, behind the reference
`g`, is the one element of `chain`. -/
def Store.construct (heap : Nat → Block) (g : Nat) (now : String) (difficulty : Nat) : Store :=
  ⟨fun r => if r = g then createGenesisBlock now else heap r, [g], difficulty⟩

/-- The method `getLatestBlock`: the reference `chain[chain.length - 1]`, `none`
for `undefined`. -/
def Store.getLatestBlock (s : Store) : Option Nat :=
  s.chain[s.chain.length - 1]?

/-- The method `addBlock` on the object behind `newBlock`: its `previousHash` is
assigned, it is mined in place (the loop bounded by `fuel` iterations), and the
reference is pushed; `none` when reading `.hash` of `undefined` throws or when
mining has not ended. -/
def Store.addBlock (fuel : Nat) (s : Store) (newBlock : Nat) : Option Store :=
  match s.getLatestBlock with
  | none => none
  | some latest =>
    let heap1 : Nat → Block := fun r =>
      if r = newBlock then { s.heap newBlock with previousHash := (s.heap latest).hash }
      else s.heap r
    match Block.mineBlock s.difficulty fuel (heap1 newBlock) with
    | none => none
    | some mined =>
      some ⟨fun r => if r = newBlock then mined else heap1 r, s.chain ++ [newBlock],
        s.difficulty⟩

/-- The method `isChainValid`, which reads the blocks of the chain. -/
def Store.isChainValid (s : Store) : Bool :=
  isChainValidLoop s.blocks s.difficulty s.blocks.length 1

/-- Objects appended one after the other with `addBlock`. -/
def Store.addBlocks (fuel : Nat) (s : Store) : List Nat → Option Store
  | [] => some s
  | r :: rest =>
    match s.addBlock fuel r with
    | none => none
    | some s1 => Store.addBlocks fuel s1 rest

/-- The assignment `chain[i].data = d`: the object stored at index `i` is written
in place; `none` when `chain[i]` is `undefined` and the assignment throws. -/
def Store.setData (s : Store) (i : Nat) (d : JSValue) : Option Store :=
  match s.chain[i]? with
  | none => none
  | some r =>
    some ⟨fun x => if x = r then { s.heap r with data := d } else s.heap x, s.chain,
      s.difficulty⟩

/-- The assignment `chain[i].hash = chain[i].calculateHash()` on the object stored
at index `i`; `none` when `chain[i]` is `undefined`. -/
def Store.rehash (s : Store) (i : Nat) : Option Store :=
  match s.chain[i]? with
  | none => none
  | some r =>
    some ⟨fun x => if x = r then { s.heap r with hash := (s.heap r).calculateHash }
      else s.heap x, s.chain, s.difficulty⟩

end Mining

/-! ## What validation checks, and sample values -/

/-- The three checks `isChainValid` of the mining chain makes on a block `cur`
with predecessor `prev`: the stored hash is the recomputed one, the stored
previous hash is the predecessor's stored hash, and the stored hash starts with
`difficulty` zeros. -/
def Checked (difficulty : Nat) (prev cur : Block) : Prop :=
  cur.hash = cur.calculateHash ∧ cur.previousHash = prev.hash ∧
    startsWith cur.hash (repeatChar '0' difficulty) = true

/-- The adjacent stored blocks of a chain are linked: each `previousHash` is
the stored hash of the block before. -/
def Linked (chain : List Block) : Prop :=
  ∀ i cur prev, 1 ≤ i → chain[i]? = some cur → chain[i - 1]? = some prev →
    cur.previousHash = prev.hash

/-- Two different texts with the same SHA-256 digest. -/
def DigestCollision (x y : String) : Prop :=
  x ≠ y ∧ sha256 x = sha256 y

/-- The chains a fresh basic `Blockchain` reaches by calls of `addBlock`. -/
inductive Basic.Reachable (now : String) : Basic.Blockchain → Prop
  | fresh : Basic.Reachable now (Basic.Blockchain.construct now)
  | step (bc bc1 : Basic.Blockchain) (b : Block) :
      Basic.Reachable now bc → bc.addBlock b = some bc1 → Basic.Reachable now bc1

/-- The chains a fresh mining `Blockchain` of difficulty `k` reaches by calls of
`addBlock` whose mining loops end. -/
inductive Mining.Reachable (now : String) (k : Nat) : Mining.Blockchain → Prop
  | fresh : Mining.Reachable now k (Mining.Blockchain.construct now k)
  | step (bc bc1 : Mining.Blockchain) (fuel : Nat) (b : Block) :
      Mining.Reachable now k bc → bc.addBlock fuel b = some bc1 → Mining.Reachable now k bc1

/-- A timestamp as `toISOString` prints it. -/
def demoTime : String := "2024-01-01T00:00:00.000Z"

/-- The payload of the first block of the demos. -/
def demoData1 : JSValue := JSValue.obj [("transaction", JSValue.str "Ankan --> Jiban")]

/-- The payload of the second block of `runDemo`. -/
def demoData2 : JSValue := JSValue.obj [("transaction", JSValue.str "Rahul --> Akash")]

/-- The payload `runDemo` overwrites block 1 with. -/
def tamperedData : JSValue := JSValue.obj [("transaction", JSValue.str "Plabon --> Koushik")]

/-- The hash of the genesis block created at `demoTime`. -/
def genesisHash : String :=
  "1bde3b61d7949bd6836239e1d35cf856cb1808f84f74dd91258add0c4774b0ee"

/-- The chain of `runDemo` before the tampering: the two demo blocks appended to
a fresh basic chain created at `demoTime`. -/
def basicDemoChain : Basic.Blockchain :=
  ⟨[⟨0, demoTime, JSValue.str "Genesis Block", "0", 0, genesisHash⟩,
    ⟨1, demoTime, demoData1, genesisHash, 0,
      "3f32b71e974ed27961ec37949434ac559caa9d45b556c4916cf8537a4e8209e8"⟩,
    ⟨2, demoTime, demoData2,
      "3f32b71e974ed27961ec37949434ac559caa9d45b556c4916cf8537a4e8209e8", 0,
      "9e27cd063bd222f4b85ff45b034b6856ebe05b099e4575a0bcf4cc6c0d51d932"⟩]⟩

/-- A block whose mining at difficulty 1 ends after one iteration when it is
appended to the fresh chain of `demoTime`. -/
def sampleBlock1 : Block := Block.construct 1 demoTime (JSValue.num 15) "" 0

/-- A block whose mining at difficulty 1 ends after two iterations, both on its
own and when it is appended after `sampleBlock1`. -/
def sampleBlock2 : Block := Block.construct 2 demoTime (JSValue.num 13) "" 0

/-- The mining chain of difficulty 1 that appending `sampleBlock1` and
`sampleBlock2` to a fresh chain created at `demoTime` builds. -/
def minedChain : Mining.Blockchain :=
  ⟨[⟨0, demoTime, JSValue.str "Genesis Block", "0", 0, genesisHash⟩,
    ⟨1, demoTime, JSValue.num 15, genesisHash, 1,
      "09f1922ffdb18595530dc23a3d24b14a07be87441e929bcb1fc78229d56ffe50"⟩,
    ⟨2, demoTime, JSValue.num 13,
      "09f1922ffdb18595530dc23a3d24b14a07be87441e929bcb1fc78229d56ffe50", 2,
      "0b8bc15ca395bad1b4e82b15a87659547c0e9ef424ddace2acb4233b1b0e156b"⟩], 1⟩

/-- A fresh basic chain created at `demoTime`, its genesis behind reference 0, and
the first demo block, newly constructed, behind every other reference. -/
def demoStore : Basic.Store :=
  Basic.Store.construct (fun _ => Block.construct 1 demoTime demoData1 "" 0) 0 demoTime

/-- A fresh mining chain of difficulty 1 created at `demoTime`, its genesis behind
reference 0, with `sampleBlock1`, newly constructed, behind reference 1 and
`sampleBlock2` behind every other reference. -/
def minedStore : Mining.Store :=
  Mining.Store.construct (fun r => if r = 1 then sampleBlock1 else sampleBlock2) 0 demoTime 1

/-- A fresh basic chain created at `demoTime`, its genesis behind reference 0, and
a newly constructed block with the payload `null` behind every other reference. -/
def nullStore : Basic.Store :=
  Basic.Store.construct (fun _ => Block.construct 1 demoTime JSValue.null "" 0) 0 demoTime


/-- The number a list of decimal digit characters writes. -/
def decimalValue (cs : List Char) : Nat :=
  cs.foldl (fun a c => 10 * a + (c.toNat - 48)) 0

/-! ## Consensus selection (`concensus_demo.js`) -/

namespace Consensus

/-- A candidate of `simulatePoW`: `{ id, power }`. -/
structure Miner where
  id : String
  power : Nat

/-- A candidate of `simulatePoS`: `{ id, stake }`. -/
structure Staker where
  id : String
  stake : Nat

/-- A candidate of `simulateDPoS`: `{ id, votes }`. -/
structure Delegate where
  id : String
  votes : Nat

/-- The call `array.reduce(f)` without an initial value: the first element is the
first accumulator; `none` for the `TypeError` on an empty array. -/
def reduce {α : Type} (f : α → α → α) : List α → Option α
  | [] => none
  | first :: rest => some (rest.foldl f first)

/-- The array `miners` of `simulatePoW`; `r1 r2 r3` are the three values of
`Math.floor(Math.random() * 100)`. -/
def miners (r1 r2 r3 : Nat) : List Miner :=
  [⟨"Miner1", r1⟩, ⟨"Miner2", r2⟩, ⟨"Miner3", r3⟩]

/-- The value `selected` of `simulatePoW`. -/
def simulatePoW (r1 r2 r3 : Nat) : Option Miner :=
  reduce (fun prev current => if prev.power > current.power then prev else current)
    (miners r1 r2 r3)

/-- The array `stakers` of `simulatePoS`; `r1 r2 r3` are the three values of
`Math.floor(Math.random() * 100)`. -/
def stakers (r1 r2 r3 : Nat) : List Staker :=
  [⟨"Staker1", r1⟩, ⟨"Staker2", r2⟩, ⟨"Staker3", r3⟩]

/-- The value `selected` of `simulatePoS`. -/
def simulatePoS (r1 r2 r3 : Nat) : Option Staker :=
  reduce (fun prev current => if prev.stake > current.stake then prev else current)
    (stakers r1 r2 r3)

/-- The array `delegates` of `simulateDPoS`; `r1 r2 r3` are the three values of
`Math.floor(Math.random()*100 * 3)`, to each of which 1 is added. -/
def delegates (r1 r2 r3 : Nat) : List Delegate :=
  [⟨"Delegate1", r1 + 1⟩, ⟨"Delegate2", r2 + 1⟩, ⟨"Delegate3", r3 + 1⟩]

/-- The value `selected` of `simulateDPoS`. -/
def simulateDPoS (r1 r2 r3 : Nat) : Option Delegate :=
  reduce (fun prev current => if prev.votes > current.votes then prev else current)
    (delegates r1 r2 r3)

end Consensus


/-- A block constructed with nonce `2 ^ 53`, where `nonce++` has no effect. -/
def stuckBlock : Block := Block.construct 1 demoTime (JSValue.num 15) "" (2 ^ 53)

/-- A block whose index and nonce are large Numbers: `1e21` and `2 ** 53`. -/
def largeNumberBlock : Block := Block.construct (10 ^ 21) demoTime JSValue.null "p" (2 ^ 53)

/-! ## Theorems -/


theorem startsWith_repeat_zero (s : String) (c : Char) :
    startsWith s (repeatChar c 0) = true := by
  simp [startsWith, repeatChar]

theorem mining_loop_eq_true_iff (chain : List Block) (d : Nat) :
    ∀ fuel i, 1 ≤ i → chain.length ≤ i + fuel →
      (Mining.isChainValidLoop chain d fuel i = true ↔
        ∀ j cur prev, i ≤ j → chain[j]? = some cur → chain[j - 1]? = some prev →
          Checked d prev cur) := by
  intro fuel
  induction fuel with
  | zero =>
    intro i _ hlen
    simp only [Mining.isChainValidLoop, true_iff]
    intro j cur prev hij hj _
    have hlt : j < chain.length := (List.getElem?_eq_some_iff.mp hj).1
    omega
  | succ fuel ih =>
    intro i hi hlen
    unfold Mining.isChainValidLoop
    by_cases hlt : i < chain.length
    · have hc : chain[i]? = some chain[i] := List.getElem?_eq_getElem hlt
      have hp : chain[i - 1]? = some chain[i - 1] := List.getElem?_eq_getElem (by omega)
      simp only [hlt, if_true, hc, hp]
      by_cases h1 : chain[i].hash = chain[i].calculateHash
      · by_cases h2 : chain[i].previousHash = chain[i - 1].hash
        · by_cases h3 : startsWith chain[i].hash (repeatChar '0' d) = true
          · rw [if_neg (not_not.mpr h1), if_neg (not_not.mpr h2), if_neg (by simp [h3]),
              ih (i + 1) (by omega) (by omega)]
            constructor
            · intro h j cur prev hij hj hpj
              rcases Nat.eq_or_lt_of_le hij with heq | hgt
              · subst heq
                rw [hc] at hj
                rw [hp] at hpj
                cases hj
                cases hpj
                exact ⟨h1, h2, h3⟩
              · exact h j cur prev hgt hj hpj
            · intro h j cur prev hij hj hpj
              exact h j cur prev (by omega) hj hpj
          · rw [if_neg (not_not.mpr h1), if_neg (not_not.mpr h2), if_pos (by simp [h3])]
            constructor
            · intro h; cases h
            · intro h
              exact absurd (h i _ _ (le_refl i) hc hp).2.2 h3
        · rw [if_neg (not_not.mpr h1), if_pos h2]
          constructor
          · intro h; cases h
          · intro h
            exact absurd (h i _ _ (le_refl i) hc hp).2.1 h2
      · rw [if_pos h1]
        constructor
        · intro h; cases h
        · intro h
          exact absurd (h i _ _ (le_refl i) hc hp).1 h1
    · simp only [hlt, if_false, true_iff]
      intro j cur prev hij hj _
      have hlt2 : j < chain.length := (List.getElem?_eq_some_iff.mp hj).1
      omega

theorem basic_loop_eq_mining_loop (chain : List Block) :
    ∀ fuel i, Basic.isChainValidLoop chain fuel i = Mining.isChainValidLoop chain 0 fuel i := by
  intro fuel
  induction fuel with
  | zero => intro i; rfl
  | succ fuel ih =>
    intro i
    unfold Basic.isChainValidLoop Mining.isChainValidLoop
    simp only [startsWith_repeat_zero, Bool.not_true, ih]
    rfl

theorem mining_isChainValid_iff (bc : Mining.Blockchain) :
    bc.isChainValid = true ↔
      ∀ j cur prev, 1 ≤ j → bc.chain[j]? = some cur → bc.chain[j - 1]? = some prev →
        Checked bc.difficulty prev cur :=
  mining_loop_eq_true_iff bc.chain bc.difficulty bc.chain.length 1 (le_refl 1) (by omega)

theorem basic_isChainValid_iff (bc : Basic.Blockchain) :
    bc.isChainValid = true ↔
      ∀ j cur prev, 1 ≤ j → bc.chain[j]? = some cur → bc.chain[j - 1]? = some prev →
        Checked 0 prev cur := by
  unfold Basic.Blockchain.isChainValid
  rw [basic_loop_eq_mining_loop]
  exact mining_loop_eq_true_iff bc.chain 0 bc.chain.length 1 (le_refl 1) (by omega)

theorem setData_getElem?_self (chain : List Block) (i : Nat) (d : JSValue) :
    (setData chain i d)[i]? = (chain[i]?).map fun b => { b with data := d } := by
  simp [setData]

theorem setData_getElem?_ne (chain : List Block) {i j : Nat} (d : JSValue) (h : i ≠ j) :
    (setData chain i d)[j]? = chain[j]? := by
  simp [setData, List.getElem?_modify_ne _ _ h]

/-- Writing back the data a block holds and the hash it already has changes nothing. -/
theorem le_increment (n : Nat) : n ≤ increment n := by
  unfold increment
  split_ifs <;> omega

theorem mineBlock_of_startsWith (d fuel : Nat) (b : Block)
    (h : startsWith b.hash (repeatChar '0' d) = true) :
    Block.mineBlock d fuel b = some b := by
  cases fuel <;> simp [Block.mineBlock, h]

/-- Mining keeps the four fields it does not search over, seals the hash, and
never lowers the nonce. -/
theorem mineBlock_result (d : Nat) :
    ∀ fuel (b b' : Block), Block.mineBlock d fuel b = some b' →
      startsWith b'.hash (repeatChar '0' d) = true ∧ b.nonce ≤ b'.nonce ∧
        b'.index = b.index ∧ b'.timestamp = b.timestamp ∧ b'.data = b.data ∧
        b'.previousHash = b.previousHash := by
  intro fuel
  induction fuel with
  | zero =>
    intro b b' h
    unfold Block.mineBlock at h
    split at h
    · cases h
      exact ⟨by assumption, le_refl _, rfl, rfl, rfl, rfl⟩
    · cases h
  | succ fuel ih =>
    intro b b' h
    unfold Block.mineBlock at h
    split at h
    · cases h
      exact ⟨by assumption, le_refl _, rfl, rfl, rfl, rfl⟩
    · obtain ⟨h1, h2, h3, h4, h5, h6⟩ := ih _ _ h
      refine ⟨h1, ?_, h3, h4, h5, h6⟩
      have h0 : b.nonce ≤ b.mineStep.nonce := le_increment b.nonce
      omega

/-- A property of neighbouring blocks carries over to the chain with one block
appended when it holds between the former last block and the new block. -/
theorem neighbours_append (P : Block → Block → Prop) (chain : List Block) (latest b : Block)
    (hall : ∀ i cur prev, 1 ≤ i → chain[i]? = some cur → chain[i - 1]? = some prev → P prev cur)
    (hlast : chain[chain.length - 1]? = some latest) (hb : P latest b) :
    ∀ i cur prev, 1 ≤ i → (chain ++ [b])[i]? = some cur →
      (chain ++ [b])[i - 1]? = some prev → P prev cur := by
  intro i cur prev hi hc hp
  have hpos : 0 < chain.length := by
    have := (List.getElem?_eq_some_iff.mp hlast).1
    omega
  have hlt : i < (chain ++ [b]).length := (List.getElem?_eq_some_iff.mp hc).1
  rw [List.length_append, List.length_singleton] at hlt
  by_cases hi2 : i < chain.length
  · rw [List.getElem?_append_left hi2] at hc
    rw [List.getElem?_append_left (by omega)] at hp
    exact hall i cur prev hi hc hp
  · have hie : i = chain.length := by omega
    subst hie
    rw [List.getElem?_append_right (le_refl _)] at hc
    rw [List.getElem?_append_left (by omega), hlast] at hp
    simp at hc
    cases hp
    subst hc
    exact hb

theorem basic_addBlock_some (bc bc1 : Basic.Blockchain) (b : Block)
    (h : bc.addBlock b = some bc1) :
    ∃ latest, bc.chain[bc.chain.length - 1]? = some latest ∧
      bc1 = ⟨bc.chain ++ [{ b with
        previousHash := latest.hash
        hash := ({ b with previousHash := latest.hash } : Block).calculateHash }]⟩ := by
  unfold Basic.Blockchain.addBlock Basic.Blockchain.getLatestBlock at h
  split at h
  · cases h
  · next latest hl =>
    cases h
    exact ⟨latest, hl, rfl⟩

theorem mining_addBlock_some (fuel : Nat) (bc bc1 : Mining.Blockchain) (b : Block)
    (h : bc.addBlock fuel b = some bc1) :
    ∃ latest mined, bc.chain[bc.chain.length - 1]? = some latest ∧
      Block.mineBlock bc.difficulty fuel { b with previousHash := latest.hash } = some mined ∧
      bc1 = ⟨bc.chain ++ [mined], bc.difficulty⟩ := by
  unfold Mining.Blockchain.addBlock Mining.Blockchain.getLatestBlock at h
  split at h
  · cases h
  · next latest hl =>
    split at h
    · cases h
    · next mined hm =>
      cases h
      exact ⟨latest, mined, hl, hm, rfl⟩

theorem basic_addBlock_of_ne_nil (bc : Basic.Blockchain) (b : Block) (h : bc.chain ≠ []) :
    ∃ bc1, bc.addBlock b = some bc1 := by
  have hpos : 0 < bc.chain.length := List.length_pos.mpr h
  have hl : bc.chain[bc.chain.length - 1]? = some bc.chain[bc.chain.length - 1] :=
    List.getElem?_eq_getElem (by omega)
  unfold Basic.Blockchain.addBlock Basic.Blockchain.getLatestBlock
  rw [hl]
  exact ⟨_, rfl⟩

theorem basic_addBlocks_reachable (now : String) :
    ∀ (bs : List Block) (bc bc1 : Basic.Blockchain), Basic.Reachable now bc →
      bc.addBlocks bs = some bc1 → Basic.Reachable now bc1 := by
  intro bs
  induction bs with
  | nil =>
    intro bc bc1 hr h
    cases h
    exact hr
  | cons b rest ih =>
    intro bc bc1 hr h
    unfold Basic.Blockchain.addBlocks at h
    split at h
    · cases h
    · next bc2 h2 => exact ih bc2 bc1 (Basic.Reachable.step bc bc2 b hr h2) h

theorem mining_addBlocks_reachable (now : String) (k fuel : Nat) :
    ∀ (bs : List Block) (bc bc1 : Mining.Blockchain), Mining.Reachable now k bc →
      bc.addBlocks fuel bs = some bc1 → Mining.Reachable now k bc1 := by
  intro bs
  induction bs with
  | nil =>
    intro bc bc1 hr h
    cases h
    exact hr
  | cons b rest ih =>
    intro bc bc1 hr h
    unfold Mining.Blockchain.addBlocks at h
    split at h
    · cases h
    · next bc2 h2 => exact ih bc2 bc1 (Mining.Reachable.step bc bc2 fuel b hr h2) h

theorem basic_reachable_linked (now : String) (bc : Basic.Blockchain)
    (h : Basic.Reachable now bc) : bc.chain ≠ [] ∧ Linked bc.chain := by
  induction h with
  | fresh =>
    refine ⟨by simp [Basic.Blockchain.construct], ?_⟩
    intro i cur prev hi hc _
    have := (List.getElem?_eq_some_iff.mp hc).1
    simp [Basic.Blockchain.construct] at this
    omega
  | step bc bc1 b _ hadd ih =>
    obtain ⟨latest, hl, rfl⟩ := basic_addBlock_some bc bc1 b hadd
    refine ⟨by simp, ?_⟩
    exact neighbours_append (fun prev cur => cur.previousHash = prev.hash) bc.chain latest _
      ih.2 hl rfl

theorem mining_reachable_sealed (now : String) (k : Nat) (bc : Mining.Blockchain)
    (h : Mining.Reachable now k bc) :
    bc.difficulty = k ∧ bc.chain ≠ [] ∧
      ∀ i cur prev, 1 ≤ i → bc.chain[i]? = some cur → bc.chain[i - 1]? = some prev →
        cur.previousHash = prev.hash ∧ startsWith cur.hash (repeatChar '0' k) = true := by
  induction h with
  | fresh =>
    refine ⟨rfl, by simp [Mining.Blockchain.construct], ?_⟩
    intro i cur prev hi hc _
    have := (List.getElem?_eq_some_iff.mp hc).1
    simp [Mining.Blockchain.construct] at this
    omega
  | step bc bc1 fuel b _ hadd ih =>
    obtain ⟨latest, mined, hl, hm, rfl⟩ := mining_addBlock_some fuel bc bc1 b hadd
    obtain ⟨hd, _, hall⟩ := ih
    refine ⟨hd, by simp, ?_⟩
    have hres := mineBlock_result bc.difficulty fuel _ mined hm
    exact neighbours_append
      (fun prev cur => cur.previousHash = prev.hash ∧ startsWith cur.hash (repeatChar '0' k) = true)
      bc.chain latest mined hall hl ⟨hres.2.2.2.2.2, hd ▸ hres.1⟩

theorem mining_addBlock_skip (fuel : Nat) (bc : Mining.Blockchain) (b latest : Block)
    (hl : bc.chain[bc.chain.length - 1]? = some latest)
    (hs : startsWith b.hash (repeatChar '0' bc.difficulty) = true) :
    bc.addBlock fuel b =
      some ⟨bc.chain ++ [{ b with previousHash := latest.hash }], bc.difficulty⟩ := by
  unfold Mining.Blockchain.addBlock Mining.Blockchain.getLatestBlock
  rw [hl]
  simp only []
  rw [mineBlock_of_startsWith bc.difficulty fuel { b with previousHash := latest.hash } hs]

theorem string_append_left_cancel {a x y : String} (h : a ++ x = a ++ y) : x = y := by
  have := congrArg String.data h
  rw [String.data_append, String.data_append] at this
  exact String.ext (List.append_cancel_left this)

theorem string_append_right_cancel {x y c : String} (h : x ++ c = y ++ c) : x = y := by
  have := congrArg String.data h
  rw [String.data_append, String.data_append] at this
  exact String.ext (List.append_cancel_right this)

/-! ## Objects: `addBlock` on the store and on the contents of the chain -/

theorem basic_store_addBlock_some (s s1 : Basic.Store) (r : Nat)
    (h : s.addBlock r = some s1) :
    ∃ latest, s.chain[s.chain.length - 1]? = some latest ∧
      s1.chain = s.chain ++ [r] ∧
      s1.heap r = { s.heap r with
        previousHash := (s.heap latest).hash
        hash := ({ s.heap r with previousHash := (s.heap latest).hash } : Block).calculateHash } ∧
      ∀ r1, r1 ≠ r → s1.heap r1 = s.heap r1 := by
  unfold Basic.Store.addBlock Basic.Store.getLatestBlock at h
  split at h
  · cases h
  · next latest hl =>
    cases h
    refine ⟨latest, hl, rfl, ?_, ?_⟩
    · simp
    · intro r1 hr
      simp [hr]

theorem mining_store_addBlock_some (fuel : Nat) (s s1 : Mining.Store) (r : Nat)
    (h : s.addBlock fuel r = some s1) :
    ∃ latest mined, s.chain[s.chain.length - 1]? = some latest ∧
      Block.mineBlock s.difficulty fuel
        { s.heap r with previousHash := (s.heap latest).hash } = some mined ∧
      s1.chain = s.chain ++ [r] ∧ s1.difficulty = s.difficulty ∧ s1.heap r = mined ∧
      ∀ r1, r1 ≠ r → s1.heap r1 = s.heap r1 := by
  unfold Mining.Store.addBlock Mining.Store.getLatestBlock at h
  split at h
  · cases h
  · next latest hl =>
    simp only [if_true] at h
    split at h
    · cases h
    · next mined hm =>
      cases h
      refine ⟨latest, mined, hl, hm, rfl, rfl, ?_, ?_⟩
      · simp
      · intro r1 hr
        simp [hr]

/-- The blocks of a chain are untouched by an assignment to an object that is not
stored in it. -/
theorem map_heap_congr (chain : List Nat) (heap heap1 : Nat → Block) (r : Nat)
    (hr : r ∉ chain) (h : ∀ r1, r1 ≠ r → heap1 r1 = heap r1) :
    chain.map heap1 = chain.map heap := by
  apply List.map_congr_left
  intro r1 hmem
  exact h r1 (fun e => hr (e ▸ hmem))

theorem latest_block_of_ref (chain : List Nat) (heap : Nat → Block) (latest : Nat)
    (hl : chain[chain.length - 1]? = some latest) :
    (chain.map heap)[(chain.map heap).length - 1]? = some (heap latest) := by
  rw [List.length_map, List.getElem?_map, hl]
  rfl

/-- On an object that is not stored in the chain, `addBlock` of the basic class
does to the blocks of the chain what `Basic.Blockchain.addBlock` does. -/
theorem basic_store_addBlock_fresh (s s1 : Basic.Store) (r : Nat)
    (h : s.addBlock r = some s1) (hr : r ∉ s.chain) :
    (Basic.Blockchain.mk s.blocks).addBlock (s.heap r) = some (Basic.Blockchain.mk s1.blocks) := by
  obtain ⟨latest, hl, hc, hh, hrest⟩ := basic_store_addBlock_some s s1 r h
  unfold Basic.Blockchain.addBlock Basic.Blockchain.getLatestBlock
  simp only [Basic.Store.blocks]
  rw [latest_block_of_ref s.chain s.heap latest hl]
  simp only [hc, List.map_append, List.map_cons, List.map_nil, hh,
    map_heap_congr s.chain s.heap s1.heap r hr hrest]

/-- On an object that is not stored in the chain, `addBlock` of the mining class
does to the blocks of the chain what `Mining.Blockchain.addBlock` does. -/
theorem mining_store_addBlock_fresh (fuel : Nat) (s s1 : Mining.Store) (r : Nat)
    (h : s.addBlock fuel r = some s1) (hr : r ∉ s.chain) :
    (Mining.Blockchain.mk s.blocks s.difficulty).addBlock fuel (s.heap r)
      = some (Mining.Blockchain.mk s1.blocks s1.difficulty) := by
  obtain ⟨latest, mined, hl, hm, hc, hd, hh, hrest⟩ := mining_store_addBlock_some fuel s s1 r h
  unfold Mining.Blockchain.addBlock Mining.Blockchain.getLatestBlock
  simp only [Mining.Store.blocks]
  rw [latest_block_of_ref s.chain s.heap latest hl]
  simp only [hm, hc, hd, List.map_append, List.map_cons, List.map_nil, hh,
    map_heap_congr s.chain s.heap s1.heap r hr hrest]

theorem basic_store_addBlocks_fresh :
    ∀ (refs : List Nat) (s s1 : Basic.Store), s.addBlocks refs = some s1 → refs.Nodup →
      (∀ r ∈ refs, r ∉ s.chain) →
      (Basic.Blockchain.mk s.blocks).addBlocks (refs.map s.heap)
        = some (Basic.Blockchain.mk s1.blocks) := by
  intro refs
  induction refs with
  | nil =>
    intro s s1 h _ _
    cases h
    rfl
  | cons r rest ih =>
    intro s s1 h hnd hfresh
    unfold Basic.Store.addBlocks at h
    split at h
    · cases h
    · next s2 h2 =>
      obtain ⟨latest, _, hc, _, hrest⟩ := basic_store_addBlock_some s s2 r h2
      have hstep := basic_store_addBlock_fresh s s2 r h2 (hfresh r (by simp))
      have hnd2 := List.nodup_cons.mp hnd
      have hfresh2 : ∀ r1 ∈ rest, r1 ∉ s2.chain := by
        intro r1 hmem
        rw [hc, List.mem_append, List.mem_singleton]
        rintro (hin | heq)
        · exact hfresh r1 (by simp [hmem]) hin
        · exact hnd2.1 (heq ▸ hmem)
      have hmap : rest.map s2.heap = rest.map s.heap :=
        map_heap_congr rest s.heap s2.heap r hnd2.1 hrest
      have := ih s2 s1 h hnd2.2 hfresh2
      rw [hmap] at this
      simp only [List.map_cons]
      unfold Basic.Blockchain.addBlocks
      rw [hstep]
      exact this

theorem mining_store_addBlocks_fresh (fuel : Nat) :
    ∀ (refs : List Nat) (s s1 : Mining.Store), s.addBlocks fuel refs = some s1 → refs.Nodup →
      (∀ r ∈ refs, r ∉ s.chain) →
      (Mining.Blockchain.mk s.blocks s.difficulty).addBlocks fuel (refs.map s.heap)
        = some (Mining.Blockchain.mk s1.blocks s1.difficulty) := by
  intro refs
  induction refs with
  | nil =>
    intro s s1 h _ _
    cases h
    rfl
  | cons r rest ih =>
    intro s s1 h hnd hfresh
    unfold Mining.Store.addBlocks at h
    split at h
    · cases h
    · next s2 h2 =>
      obtain ⟨latest, mined, _, _, hc, _, _, hrest⟩ := mining_store_addBlock_some fuel s s2 r h2
      have hstep := mining_store_addBlock_fresh fuel s s2 r h2 (hfresh r (by simp))
      have hnd2 := List.nodup_cons.mp hnd
      have hfresh2 : ∀ r1 ∈ rest, r1 ∉ s2.chain := by
        intro r1 hmem
        rw [hc, List.mem_append, List.mem_singleton]
        rintro (hin | heq)
        · exact hfresh r1 (by simp [hmem]) hin
        · exact hnd2.1 (heq ▸ hmem)
      have hmap : rest.map s2.heap = rest.map s.heap :=
        map_heap_congr rest s.heap s2.heap r hnd2.1 hrest
      have := ih s2 s1 h hnd2.2 hfresh2
      rw [hmap] at this
      simp only [List.map_cons]
      unfold Mining.Blockchain.addBlocks
      rw [hstep]
      exact this

theorem basic_store_construct_blocks (heap : Nat → Block) (g : Nat) (now : String) :
    Basic.Blockchain.mk (Basic.Store.construct heap g now).blocks
      = Basic.Blockchain.construct now := by
  simp [Basic.Store.construct, Basic.Store.blocks, Basic.Blockchain.construct]

theorem mining_store_construct_blocks (heap : Nat → Block) (g : Nat) (now : String) (d : Nat) :
    Mining.Blockchain.mk (Mining.Store.construct heap g now d).blocks
        (Mining.Store.construct heap g now d).difficulty
      = Mining.Blockchain.construct now d := by
  simp [Mining.Store.construct, Mining.Store.blocks, Mining.Blockchain.construct]

theorem basic_store_addBlock_of_ne_nil (s : Basic.Store) (r : Nat) (h : s.chain ≠ []) :
    ∃ s1, s.addBlock r = some s1 := by
  have hpos : 0 < s.chain.length := List.length_pos.mpr h
  have hl : s.chain[s.chain.length - 1]? = some s.chain[s.chain.length - 1] :=
    List.getElem?_eq_getElem (by omega)
  unfold Basic.Store.addBlock Basic.Store.getLatestBlock
  rw [hl]
  exact ⟨_, rfl⟩

theorem basic_store_addBlocks_of_ne_nil :
    ∀ (refs : List Nat) (s : Basic.Store), s.chain ≠ [] → ∃ s1, s.addBlocks refs = some s1 := by
  intro refs
  induction refs with
  | nil => intro s _; exact ⟨s, rfl⟩
  | cons r rest ih =>
    intro s hne
    obtain ⟨s2, h2⟩ := basic_store_addBlock_of_ne_nil s r hne
    obtain ⟨_, _, hc, _, _⟩ := basic_store_addBlock_some s s2 r h2
    obtain ⟨s3, h3⟩ := ih s2 (by rw [hc]; simp)
    refine ⟨s3, ?_⟩
    unfold Basic.Store.addBlocks
    rw [h2]
    exact h3

/-! ## Stores: the validators read hashes only -/

theorem basic_store_isChainValid_iff (s : Basic.Store) :
    s.isChainValid = true ↔
      ∀ j cur prev, 1 ≤ j → s.blocks[j]? = some cur → s.blocks[j - 1]? = some prev →
        Checked 0 prev cur :=
  basic_isChainValid_iff ⟨s.blocks⟩

theorem mining_store_isChainValid_iff (s : Mining.Store) :
    s.isChainValid = true ↔
      ∀ j cur prev, 1 ≤ j → s.blocks[j]? = some cur → s.blocks[j - 1]? = some prev →
        Checked s.difficulty prev cur :=
  mining_isChainValid_iff ⟨s.blocks, s.difficulty⟩

theorem checked_map_congr (k : Nat) (chain : List Nat) (heap heap1 : Nat → Block)
    (hh : ∀ r, (heap1 r).hash = (heap r).hash)
    (hp : ∀ r, (heap1 r).previousHash = (heap r).previousHash)
    (hc : ∀ r, (heap1 r).calculateHash = (heap r).calculateHash)
    (h : ∀ j cur prev, 1 ≤ j → (chain.map heap)[j]? = some cur →
      (chain.map heap)[j - 1]? = some prev → Checked k prev cur) :
    ∀ j cur prev, 1 ≤ j → (chain.map heap1)[j]? = some cur →
      (chain.map heap1)[j - 1]? = some prev → Checked k prev cur := by
  intro j cur prev hj hcur hprev
  rw [List.getElem?_map] at hcur hprev
  cases hr : chain[j]? with
  | none => rw [hr] at hcur; cases hcur
  | some r =>
    cases hq : chain[j - 1]? with
    | none => rw [hq] at hprev; cases hprev
    | some q =>
      rw [hr] at hcur
      rw [hq] at hprev
      cases hcur
      cases hprev
      have h0 := h j (heap r) (heap q) hj (by rw [List.getElem?_map, hr]; rfl)
        (by rw [List.getElem?_map, hq]; rfl)
      unfold Checked at h0 ⊢
      rw [hh r, hp r, hc r, hh q]
      exact h0

theorem hashInput_setData_eq_iff (b : Block) (d : JSValue) :
    ({ b with data := d } : Block).hashInput = b.hashInput ↔ d.jsonText = b.data.jsonText := by
  unfold Block.hashInput
  constructor
  · intro h
    exact string_append_left_cancel
      (string_append_right_cancel (string_append_right_cancel h))
  · intro h
    simp only [h]

theorem digest_ne_iff (x y : String) :
    sha256 x ≠ sha256 y ↔ x ≠ y ∧ ¬ DigestCollision x y := by
  unfold DigestCollision
  constructor
  · intro h
    exact ⟨fun e => h (e ▸ rfl), fun c => h c.2⟩
  · intro h e
    exact h.2 ⟨h.1, e⟩

theorem block_restore_eq (b : Block) (d : JSValue) (h : b.hash = b.calculateHash) :
    ({ ({ ({ b with data := d } : Block) with data := b.data } : Block) with
      hash := ({ ({ b with data := d } : Block) with data := b.data } : Block).calculateHash } :
        Block) = b := by
  cases b
  simp only [Block.mk.injEq, true_and]
  exact h.symm

theorem tamper_checked_iff (k : Nat) (chain : List Nat) (heap : Nat → Block) (r : Nat)
    (d : JSValue)
    (hv : ∀ j cur prev, 1 ≤ j → (chain.map heap)[j]? = some cur →
      (chain.map heap)[j - 1]? = some prev → Checked k prev cur)
    (h1 : chain[1]? = some r) :
    (heap r).hash = (heap r).calculateHash ∧
    ((∀ j cur prev, 1 ≤ j →
        (chain.map fun x => if x = r then { heap r with data := d } else heap x)[j]? = some cur →
        (chain.map fun x => if x = r then { heap r with data := d } else heap x)[j - 1]? =
          some prev → Checked k prev cur) ↔
      sha256 ({ heap r with data := d } : Block).hashInput = sha256 (heap r).hashInput) := by
  have hlen : 1 < chain.length := (List.getElem?_eq_some_iff.mp h1).1
  obtain ⟨p, hp⟩ : ∃ p, chain[1 - 1]? = some p := ⟨_, List.getElem?_eq_getElem (by omega)⟩
  have hc1 : Checked k (heap p) (heap r) :=
    hv 1 _ _ (le_refl 1) (by rw [List.getElem?_map, h1]; rfl)
      (by rw [List.getElem?_map, hp]; rfl)
  refine ⟨hc1.1, ?_, ?_⟩
  · intro h
    have h2 := h 1 _ _ (le_refl 1) (by rw [List.getElem?_map, h1]; rfl)
      (by rw [List.getElem?_map, hp]; rfl)
    have h3 := h2.1
    simp only [if_true] at h3
    have h4 := hc1.1
    unfold Block.calculateHash at h3 h4
    rw [← h3]
    exact h4
  · intro h
    apply checked_map_congr k chain heap _ _ _ _ hv
    · intro x
      by_cases hx : x = r
      · simp only [hx, if_true]
      · simp only [hx, if_false]
    · intro x
      by_cases hx : x = r
      · simp only [hx, if_true]
      · simp only [hx, if_false]
    · intro x
      by_cases hx : x = r
      · simp only [hx, if_true]
        exact h
      · simp only [hx, if_false]

theorem bool_eq_false_iff_of_iff {b : Bool} {p : Prop} (h : b = true ↔ p) :
    b = false ↔ ¬ p := by
  rw [← h]
  cases b
  · exact ⟨fun _ e => Bool.noConfusion e, fun _ => rfl⟩
  · exact ⟨fun e => Bool.noConfusion e, fun e => absurd rfl e⟩

/-! ## The sample chains are the chains the code builds -/

set_option maxRecDepth 100000 in
theorem basicDemoChain_built :
    (Basic.Blockchain.construct demoTime).addBlocks
      [Block.construct 1 demoTime demoData1 "" 0, Block.construct 2 demoTime demoData2 "" 0]
      = some basicDemoChain := by
  rfl

set_option maxRecDepth 100000 in
theorem minedChain_built :
    (Mining.Blockchain.construct demoTime 1).addBlocks 4 [sampleBlock1, sampleBlock2]
      = some minedChain := by
  rfl

set_option maxRecDepth 100000 in
theorem basicDemoChain_valid : basicDemoChain.isChainValid = true := by
  decide!

set_option maxRecDepth 100000 in
theorem minedChain_valid : minedChain.isChainValid = true := by
  decide!

/-! ## C1: tamper detection -/

set_option maxRecDepth 100000 in
/-- Claim C1, counterexample: a new block with the payload `null` is appended to
a fresh basic chain, which gives a valid chain of two blocks; overwriting the data
of block 1 with `NaN`, a different value with the same JSON text, leaves
`isChainValid` at `true`. -/
theorem tamper_null_by_nan_undetected :
    ∃ s s1 : Basic.Store, nullStore.addBlock 1 = some s ∧ s.isChainValid = true ∧
      s.chain.length = 2 ∧ s.blocks.map Block.data = [JSValue.str "Genesis Block", JSValue.null] ∧
      JSValue.nan ≠ JSValue.null ∧
      s.setData 1 JSValue.nan = some s1 ∧
      s1.blocks.map Block.data = [JSValue.str "Genesis Block", JSValue.nan] ∧
      s1.isChainValid = true := by
  refine ⟨_, _, rfl, ?_, rfl, rfl, ?_, rfl, rfl, ?_⟩
  · decide!
  · intro h; cases h
  · decide!

/-- Claim C1 (amended): for every valid chain of at least two blocks and every
replacement value `d` for the data of the block object stored at index 1, after the
assignment `chain[1].data = d`, which leaves the stored hash as it was,
`isChainValid` returns `false` exactly when the JSON text of `d` differs from the
JSON text of the original data and the two digest texts are not a SHA-256
collision; a replacement with the same JSON text is never detected. Writing the
original data back and recomputing the hash gives back the original objects, and
`isChainValid` returns `true` again. Both for the validator of the basic chain and
for the validator of the mining chain. -/
theorem tamper_detected_then_restored :
    (∀ (s : Basic.Store) (r : Nat) (d : JSValue),
      s.isChainValid = true → s.chain[1]? = some r →
      ∃ s1 s2 s3 : Basic.Store, s.setData 1 d = some s1 ∧
        s1.heap r = { s.heap r with data := d } ∧
        (s1.isChainValid = false ↔
          d.jsonText ≠ (s.heap r).data.jsonText ∧
            ¬ DigestCollision ({ s.heap r with data := d } : Block).hashInput
              (s.heap r).hashInput) ∧
        (d.jsonText = (s.heap r).data.jsonText → s1.isChainValid = true) ∧
        s1.setData 1 (s.heap r).data = some s2 ∧ s2.rehash 1 = some s3 ∧
        s3 = s ∧ s3.isChainValid = true) ∧
    (∀ (s : Mining.Store) (r : Nat) (d : JSValue),
      s.isChainValid = true → s.chain[1]? = some r →
      ∃ s1 s2 s3 : Mining.Store, s.setData 1 d = some s1 ∧
        s1.heap r = { s.heap r with data := d } ∧
        (s1.isChainValid = false ↔
          d.jsonText ≠ (s.heap r).data.jsonText ∧
            ¬ DigestCollision ({ s.heap r with data := d } : Block).hashInput
              (s.heap r).hashInput) ∧
        (d.jsonText = (s.heap r).data.jsonText → s1.isChainValid = true) ∧
        s1.setData 1 (s.heap r).data = some s2 ∧ s2.rehash 1 = some s3 ∧
        s3 = s ∧ s3.isChainValid = true) := by
  constructor
  · intro s r d hv h1
    obtain ⟨hh, hiff⟩ := tamper_checked_iff 0 s.chain s.heap r d
      ((basic_store_isChainValid_iff s).mp hv) h1
    have hvalid := (basic_store_isChainValid_iff
      ⟨fun x => if x = r then { s.heap r with data := d } else s.heap x, s.chain⟩).trans hiff
    have hfalse := (bool_eq_false_iff_of_iff hvalid).trans
      ((digest_ne_iff _ _).trans
        (and_congr_left' (not_congr (hashInput_setData_eq_iff (s.heap r) d))))
    refine ⟨⟨fun x => if x = r then { s.heap r with data := d } else s.heap x, s.chain⟩,
      ⟨fun x => if x = r then { ({ s.heap r with data := d } : Block) with
        data := (s.heap r).data } else s.heap x, s.chain⟩, s, ?_, ?_, hfalse, ?_,
      ?_, ?_, rfl, hv⟩
    · simp only [Basic.Store.setData, h1]
    · simp only [if_true]
    · intro e
      cases hres : Basic.Store.isChainValid
        ⟨fun x => if x = r then { s.heap r with data := d } else s.heap x, s.chain⟩
      · exact absurd e (hfalse.mp hres).1
      · rfl
    · simp only [Basic.Store.setData, h1, if_true]
      congr 2
      funext x
      by_cases hx : x = r
      · simp only [hx, if_true]
      · simp only [hx, if_false]
    · simp only [Basic.Store.rehash, h1, if_true]
      congr 1
      cases s with
      | mk heap chain =>
        congr 1
        funext x
        by_cases hx : x = r
        · simp only [hx, if_true]
          exact block_restore_eq (heap r) d hh
        · simp only [hx, if_false]
  · intro s r d hv h1
    obtain ⟨hh, hiff⟩ := tamper_checked_iff s.difficulty s.chain s.heap r d
      ((mining_store_isChainValid_iff s).mp hv) h1
    have hvalid := (mining_store_isChainValid_iff
      ⟨fun x => if x = r then { s.heap r with data := d } else s.heap x, s.chain, s.difficulty⟩).trans hiff
    have hfalse := (bool_eq_false_iff_of_iff hvalid).trans
      ((digest_ne_iff _ _).trans
        (and_congr_left' (not_congr (hashInput_setData_eq_iff (s.heap r) d))))
    refine ⟨⟨fun x => if x = r then { s.heap r with data := d } else s.heap x, s.chain, s.difficulty⟩,
      ⟨fun x => if x = r then { ({ s.heap r with data := d } : Block) with
        data := (s.heap r).data } else s.heap x, s.chain, s.difficulty⟩, s, ?_, ?_, hfalse, ?_,
      ?_, ?_, rfl, hv⟩
    · simp only [Mining.Store.setData, h1]
    · simp only [if_true]
    · intro e
      cases hres : Mining.Store.isChainValid
        ⟨fun x => if x = r then { s.heap r with data := d } else s.heap x, s.chain, s.difficulty⟩
      · exact absurd e (hfalse.mp hres).1
      · rfl
    · simp only [Mining.Store.setData, h1, if_true]
      congr 2
      funext x
      by_cases hx : x = r
      · simp only [hx, if_true]
      · simp only [hx, if_false]
    · simp only [Mining.Store.rehash, h1, if_true]
      congr 1
      cases s with
      | mk heap chain difficulty =>
        congr 1
        funext x
        by_cases hx : x = r
        · simp only [hx, if_true]
          exact block_restore_eq (heap r) d hh
        · simp only [hx, if_false]

set_option maxRecDepth 100000 in
/-- Claim C1, witness: the chain of `runDemo` with the data of block 1 overwritten
as `runDemo` does, and the mined chain of difficulty 1 with the data of block 1
overwritten likewise; both are detected, and both are valid again after the
original data is written back and the hash recomputed. -/
theorem tamper_detected_then_restored_witness :
    (∃ s s1 s2 s3 : Basic.Store, demoStore.addBlocks [1, 2] = some s ∧
      s.isChainValid = true ∧ s.setData 1 tamperedData = some s1 ∧
      s1.isChainValid = false ∧ s1.setData 1 demoData1 = some s2 ∧
      s2.rehash 1 = some s3 ∧ s3.isChainValid = true) ∧
    (∃ s s1 s2 s3 : Mining.Store, minedStore.addBlocks 2 [1, 2] = some s ∧
      s.isChainValid = true ∧ s.setData 1 tamperedData = some s1 ∧
      s1.isChainValid = false ∧ s1.setData 1 (JSValue.num 15) = some s2 ∧
      s2.rehash 1 = some s3 ∧ s3.isChainValid = true) := by
  constructor
  · have hs : ∃ s : Basic.Store, demoStore.addBlocks [1, 2] = some s ∧
        s.isChainValid = true ∧ s.chain[1]? = some 1 ∧ (s.heap 1).data = demoData1 ∧
        tamperedData.jsonText ≠ (s.heap 1).data.jsonText ∧
        ¬ DigestCollision ({ s.heap 1 with data := tamperedData } : Block).hashInput
          (s.heap 1).hashInput := by
      refine ⟨_, rfl, ?_, rfl, rfl, ?_, ?_⟩
      · decide!
      · decide!
      · unfold DigestCollision
        decide!
    obtain ⟨s, hb, hv, hc, hd, ht, hn⟩ := hs
    obtain ⟨s1, s2, s3, h1, _, hiff, _, h2, h3, _, hv3⟩ :=
      tamper_detected_then_restored.1 s 1 tamperedData hv hc
    exact ⟨s, s1, s2, s3, hb, hv, h1, hiff.mpr ⟨ht, hn⟩, hd ▸ h2, h3, hv3⟩
  · have hs : ∃ s : Mining.Store, minedStore.addBlocks 2 [1, 2] = some s ∧
        s.isChainValid = true ∧ s.chain[1]? = some 1 ∧ (s.heap 1).data = JSValue.num 15 ∧
        tamperedData.jsonText ≠ (s.heap 1).data.jsonText ∧
        ¬ DigestCollision ({ s.heap 1 with data := tamperedData } : Block).hashInput
          (s.heap 1).hashInput := by
      refine ⟨_, rfl, ?_, rfl, rfl, ?_, ?_⟩
      · decide!
      · decide!
      · unfold DigestCollision
        decide!
    obtain ⟨s, hb, hv, hc, hd, ht, hn⟩ := hs
    obtain ⟨s1, s2, s3, h1, _, hiff, _, h2, h3, _, hv3⟩ :=
      tamper_detected_then_restored.2 s 1 tamperedData hv hc
    exact ⟨s, s1, s2, s3, hb, hv, h1, hiff.mpr ⟨ht, hn⟩, hd ▸ h2, h3, hv3⟩

/-! ## C2 and C3: appending to the mining chain -/

set_option maxRecDepth 100000 in
/-- Claim C2, the code at two failing inputs: a fresh chain of difficulty 0 to which
the first demo block is appended, and a fresh chain of difficulty 1 to which a
block is appended whose constructor-time hash already starts with `0`. In both
the mining loop does not iterate, `addBlock` returns, and `isChainValid` returns
`false` on the chain that `addBlock` built. -/
theorem mining_append_yields_invalid_chain :
    (∀ fuel, ((Mining.Blockchain.construct demoTime 0).addBlock fuel
        (Block.construct 1 demoTime demoData1 "" 0)).map Mining.Blockchain.isChainValid
          = some false) ∧
    (∀ fuel, ((Mining.Blockchain.construct demoTime 1).addBlock fuel
        (Block.construct 1 demoTime (JSValue.num 13) "" 0)).map Mining.Blockchain.isChainValid
          = some false) := by
  constructor
  · intro fuel
    rw [mining_addBlock_skip fuel (Mining.Blockchain.construct demoTime 0)
      (Block.construct 1 demoTime demoData1 "" 0) (Mining.createGenesisBlock demoTime) rfl
      (by decide!)]
    decide!
  · intro fuel
    rw [mining_addBlock_skip fuel (Mining.Blockchain.construct demoTime 1)
      (Block.construct 1 demoTime (JSValue.num 13) "" 0) (Mining.createGenesisBlock demoTime) rfl
      (by decide!)]
    decide!

set_option maxRecDepth 100000 in
/-- Claim C3, the code at the failing input: on a fresh chain of difficulty 0,
`addBlock` of the first demo block returns with the block stored at index 1
still holding the hash its constructor computed (from `previousHash = ""`), which
is not `calculateHash` of its fields now that `previousHash` is the genesis hash;
its nonce is the caller's. -/
theorem mining_append_keeps_stale_hash :
    ∀ fuel, ∃ (bc : Mining.Blockchain) (stored : Block),
      (Mining.Blockchain.construct demoTime 0).addBlock fuel
        (Block.construct 1 demoTime demoData1 "" 0) = some bc ∧
      bc.chain[1]? = some stored ∧
      stored.hash = (Block.construct 1 demoTime demoData1 "" 0).hash ∧
      stored.hash ≠ stored.calculateHash ∧ stored.nonce = 0 := by
  intro fuel
  refine ⟨_, _,
    mining_addBlock_skip fuel (Mining.Blockchain.construct demoTime 0)
      (Block.construct 1 demoTime demoData1 "" 0) (Mining.createGenesisBlock demoTime) rfl
      (by decide!),
    rfl, rfl, ?_, rfl⟩
  decide!

/-! ## C4: what `isChainValid` of the mining chain decides -/

/-- Claim C4: `isChainValid` of the mining chain returns `true` exactly when every
block at an index `i ≥ 1` has a stored hash equal to its recomputed digest, a
stored previous hash equal to the stored hash of block `i - 1`, and, when the
difficulty is positive, a stored hash starting with that many zeros; so a block
whose previous hash is not its predecessor's hash makes it return `false`. -/
theorem mining_isChainValid_characterisation (bc : Mining.Blockchain) :
    (bc.isChainValid = true ↔
      ∀ i cur prev, 1 ≤ i → bc.chain[i]? = some cur → bc.chain[i - 1]? = some prev →
        cur.hash = cur.calculateHash ∧ cur.previousHash = prev.hash ∧
          (0 < bc.difficulty → startsWith cur.hash (repeatChar '0' bc.difficulty) = true)) ∧
    (∀ i cur prev, 1 ≤ i → bc.chain[i]? = some cur → bc.chain[i - 1]? = some prev →
      cur.previousHash ≠ prev.hash → bc.isChainValid = false) := by
  have key : bc.isChainValid = true ↔
      ∀ i cur prev, 1 ≤ i → bc.chain[i]? = some cur → bc.chain[i - 1]? = some prev →
        cur.hash = cur.calculateHash ∧ cur.previousHash = prev.hash ∧
          (0 < bc.difficulty → startsWith cur.hash (repeatChar '0' bc.difficulty) = true) := by
    rw [mining_isChainValid_iff]
    constructor
    · intro h i cur prev hi hc hp
      obtain ⟨h1, h2, h3⟩ := h i cur prev hi hc hp
      exact ⟨h1, h2, fun _ => h3⟩
    · intro h i cur prev hi hc hp
      obtain ⟨h1, h2, h3⟩ := h i cur prev hi hc hp
      refine ⟨h1, h2, ?_⟩
      rcases Nat.eq_zero_or_pos bc.difficulty with h0 | hpos
      · rw [h0]
        exact startsWith_repeat_zero _ _
      · exact h3 hpos
  refine ⟨key, ?_⟩
  intro i cur prev hi hc hp hne
  cases hres : bc.isChainValid
  · rfl
  · exact absurd (key.mp hres i cur prev hi hc hp).2.1 hne

/-! ## C5: the postcondition of mining -/

/-- Claim C5: when `mineBlock(difficulty)` returns, the stored hash of the block
starts with `difficulty` characters `0` and the nonce is at least the nonce the
block had before the call. -/
theorem mineBlock_postcondition (difficulty fuel : Nat) (b mined : Block)
    (h : Block.mineBlock difficulty fuel b = some mined) :
    startsWith mined.hash (repeatChar '0' difficulty) = true ∧ b.nonce ≤ mined.nonce :=
  ⟨(mineBlock_result difficulty fuel b mined h).1, (mineBlock_result difficulty fuel b mined h).2.1⟩

set_option maxRecDepth 100000 in
/-- Claim C5, witness: at difficulty 1 the loop on `sampleBlock2` ends after its
second iteration. -/
theorem mineBlock_postcondition_witness :
    Block.mineBlock 1 5 sampleBlock2 = some sampleBlock2.mineStep.mineStep ∧
      startsWith sampleBlock2.mineStep.mineStep.hash (repeatChar '0' 1) = true ∧
      sampleBlock2.nonce ≤ sampleBlock2.mineStep.mineStep.nonce :=
  ⟨rfl, mineBlock_postcondition 1 5 sampleBlock2 _ rfl⟩

/-! ## C6: linkage of appended blocks -/

set_option maxRecDepth 100000 in
/-- Claim C6, counterexample: one block object appended twice to a fresh chain, in
the basic class and in the mining class of difficulty 1. The second `addBlock`
assigns to the object that is already stored at index 1, whose `previousHash`
becomes its own former hash and no longer the hash of block 0: the chain
`[genesis, b, b]` is not linked. -/
theorem same_object_appended_twice_unlinked :
    (∃ s1 s2 : Basic.Store, demoStore.addBlock 1 = some s1 ∧ s1.addBlock 1 = some s2 ∧
      s2.chain = [0, 1, 1] ∧ ¬ Linked s2.blocks) ∧
    (∃ s1 s2 : Mining.Store, minedStore.addBlock 4 1 = some s1 ∧
      s1.addBlock 4 1 = some s2 ∧ s2.chain = [0, 1, 1] ∧ ¬ Linked s2.blocks) := by
  constructor
  · refine ⟨_, _, rfl, rfl, rfl, ?_⟩
    intro h
    have h1 := h 1 _ _ (le_refl 1) rfl rfl
    exact absurd h1 (by decide!)
  · refine ⟨_, _, rfl, rfl, rfl, ?_⟩
    intro h
    have h1 := h 1 _ _ (le_refl 1) rfl rfl
    exact absurd h1 (by decide!)

/-- Claim C6 (amended): for every sequence of N block objects that are distinct and
other than the genesis object, so that none is stored in the chain when it is
appended, appended with `addBlock` to a fresh chain (both classes, any
difficulty), the resulting chain satisfies
`blocks[i].previousHash == blocks[i-1].hash` for every `i ≥ 1`, the hash being the
stored hash after the append. In the basic class every such sequence of calls
returns; in the mining class the chain is the one the calls return with. -/
theorem store_append_linkage :
    (∀ (heap : Nat → Block) (g : Nat) (now : String) (refs : List Nat),
      refs.Nodup → g ∉ refs →
      ∃ s, (Basic.Store.construct heap g now).addBlocks refs = some s ∧ Linked s.blocks) ∧
    (∀ (heap : Nat → Block) (g : Nat) (now : String) (difficulty fuel : Nat)
      (refs : List Nat) (s : Mining.Store), refs.Nodup → g ∉ refs →
      (Mining.Store.construct heap g now difficulty).addBlocks fuel refs = some s →
        Linked s.blocks) := by
  constructor
  · intro heap g now refs hnd hg
    obtain ⟨s, hs⟩ := basic_store_addBlocks_of_ne_nil refs (Basic.Store.construct heap g now)
      (by simp [Basic.Store.construct])
    refine ⟨s, hs, ?_⟩
    have hsim := basic_store_addBlocks_fresh refs _ s hs hnd
      (by
        intro r hr hmem
        simp only [Basic.Store.construct, List.mem_singleton] at hmem
        exact hg (hmem ▸ hr))
    rw [basic_store_construct_blocks] at hsim
    exact (basic_reachable_linked now _
      (basic_addBlocks_reachable now _ _ _ Basic.Reachable.fresh hsim)).2
  · intro heap g now difficulty fuel refs s hnd hg hs i cur prev hi hc hp
    have hsim := mining_store_addBlocks_fresh fuel refs _ s hs hnd
      (by
        intro r hr hmem
        simp only [Mining.Store.construct, List.mem_singleton] at hmem
        exact hg (hmem ▸ hr))
    rw [mining_store_construct_blocks] at hsim
    exact ((mining_reachable_sealed now difficulty _
      (mining_addBlocks_reachable now difficulty fuel _ _ _ Mining.Reachable.fresh hsim)).2.2
        i cur prev hi hc hp).1

set_option maxRecDepth 100000 in
/-- Claim C6, witness: the objects behind the references 1 and 2 appended to the
fresh basic chain and to the fresh mining chain of difficulty 1. -/
theorem store_append_linkage_witness :
    (∃ s, demoStore.addBlocks [1, 2] = some s ∧ s.chain = [0, 1, 2] ∧ Linked s.blocks) ∧
    (∃ s, minedStore.addBlocks 4 [1, 2] = some s ∧ s.chain = [0, 1, 2] ∧ Linked s.blocks) := by
  constructor
  · obtain ⟨s, hs, hl⟩ := store_append_linkage.1
      (fun _ => Block.construct 1 demoTime demoData1 "" 0) 0 demoTime [1, 2] (by decide)
      (by decide)
    have hs2 : demoStore.addBlocks [1, 2] = some s := hs
    have hc : (demoStore.addBlocks [1, 2]).map Basic.Store.chain = some [0, 1, 2] := rfl
    rw [hs2] at hc
    exact ⟨s, hs2, Option.some.inj hc, hl⟩
  · refine ⟨_, rfl, rfl, ?_⟩
    exact store_append_linkage.2 (fun r => if r = 1 then sampleBlock1 else sampleBlock2) 0
      demoTime 1 4 [1, 2] _ (by decide) (by decide) rfl

/-! ## C7: difficulty enforcement -/

/-- Claim C7: for a difficulty `k > 0`, in every chain reachable from a fresh
`Blockchain(k)` by calls of `addBlock`, the stored hash of every block at an
index `i ≥ 1` starts with `k` characters `0`; nothing is said of index 0. -/
theorem difficulty_enforced (now : String) (k : Nat) (bc : Mining.Blockchain) (_hk : 0 < k)
    (h : Mining.Reachable now k bc) :
    ∀ i cur, 1 ≤ i → bc.chain[i]? = some cur →
      startsWith cur.hash (repeatChar '0' k) = true := by
  intro i cur hi hc
  have hlt : i < bc.chain.length := (List.getElem?_eq_some_iff.mp hc).1
  have hp : bc.chain[i - 1]? = some bc.chain[i - 1] := List.getElem?_eq_getElem (by omega)
  exact ((mining_reachable_sealed now k bc h).2.2 i cur _ hi hc hp).2

set_option maxRecDepth 100000 in
/-- Claim C7, witness: `minedChain`, of difficulty 1 with two mined blocks; its
genesis hash does not start with `0`. -/
theorem difficulty_enforced_witness :
    (Mining.Blockchain.construct demoTime 1).addBlocks 4 [sampleBlock1, sampleBlock2]
        = some minedChain ∧
      (∀ i cur, 1 ≤ i → minedChain.chain[i]? = some cur →
        startsWith cur.hash (repeatChar '0' 1) = true) ∧
      (minedChain.chain.map fun b => startsWith b.hash (repeatChar '0' 1))
        = [false, true, true] :=
  ⟨minedChain_built,
    difficulty_enforced demoTime 1 minedChain (by decide)
      (mining_addBlocks_reachable demoTime 1 4 [sampleBlock1, sampleBlock2] _ minedChain
        Mining.Reachable.fresh minedChain_built),
    by decide⟩

/-! ## C8: what a successful validation establishes -/

set_option maxRecDepth 100000 in
/-- Claim C8, counterexample: the chain of `runDemo` after the data of its genesis
block is overwritten. `isChainValid` returns `true` although the stored hash of
block 0 is not the digest of block 0. -/
theorem valid_chain_with_stale_genesis :
    ∃ genesis : Block,
      (setData basicDemoChain.chain 0 tamperedData)[0]? = some genesis ∧
      ({ basicDemoChain with chain := setData basicDemoChain.chain 0 tamperedData } :
        Basic.Blockchain).isChainValid = true ∧
      genesis.hash ≠ genesis.calculateHash := by
  refine ⟨_, rfl, ?_, ?_⟩
  · decide!
  · decide!

/-- Claim C8 (amended): whenever `isChainValid` returns `true`, every block at an
index `i ≥ 1` has a stored hash equal to its recomputed digest and a stored
previous hash equal to the stored hash of block `i - 1`, and in the mining class
with a positive difficulty its stored hash starts with that many zeros. The
block at index 0 is not examined. -/
theorem valid_chain_invariants :
    (∀ (bc : Basic.Blockchain), bc.isChainValid = true →
      ∀ i cur prev, 1 ≤ i → bc.chain[i]? = some cur → bc.chain[i - 1]? = some prev →
        cur.hash = cur.calculateHash ∧ cur.previousHash = prev.hash) ∧
    (∀ (bc : Mining.Blockchain), bc.isChainValid = true →
      ∀ i cur prev, 1 ≤ i → bc.chain[i]? = some cur → bc.chain[i - 1]? = some prev →
        cur.hash = cur.calculateHash ∧ cur.previousHash = prev.hash ∧
          (0 < bc.difficulty → startsWith cur.hash (repeatChar '0' bc.difficulty) = true)) := by
  constructor
  · intro bc hv i cur prev hi hc hp
    obtain ⟨h1, h2, _⟩ := (basic_isChainValid_iff bc).mp hv i cur prev hi hc hp
    exact ⟨h1, h2⟩
  · intro bc hv i cur prev hi hc hp
    obtain ⟨h1, h2, h3⟩ := (mining_isChainValid_iff bc).mp hv i cur prev hi hc hp
    exact ⟨h1, h2, fun _ => h3⟩

set_option maxRecDepth 100000 in
/-- Claim C8, witness: the chain of `runDemo` and the mined chain of difficulty 1
are valid, so their blocks from index 1 on satisfy the checks. -/
theorem valid_chain_invariants_witness :
    (basicDemoChain.isChainValid = true ∧
      ∀ i cur prev, 1 ≤ i → basicDemoChain.chain[i]? = some cur →
        basicDemoChain.chain[i - 1]? = some prev →
          cur.hash = cur.calculateHash ∧ cur.previousHash = prev.hash) ∧
    (minedChain.isChainValid = true ∧
      ∀ i cur prev, 1 ≤ i → minedChain.chain[i]? = some cur →
        minedChain.chain[i - 1]? = some prev →
          cur.hash = cur.calculateHash ∧ cur.previousHash = prev.hash ∧
            (0 < minedChain.difficulty →
              startsWith cur.hash (repeatChar '0' minedChain.difficulty) = true)) :=
  ⟨⟨basicDemoChain_valid, valid_chain_invariants.1 basicDemoChain basicDemoChain_valid⟩,
    ⟨minedChain_valid, valid_chain_invariants.2 minedChain minedChain_valid⟩⟩

/-! ## C9: the index of an appended block -/

set_option maxRecDepth 100000 in
/-- Claim C9, counterexample: a block constructed with index 7 and appended to a
fresh chain is stored at position 1 and still has index 7, in both classes. -/
theorem append_keeps_foreign_index :
    (((Basic.Blockchain.construct demoTime).addBlock
        (Block.construct 7 demoTime demoData1 "" 0)).map
          fun bc => bc.chain.map Block.index) = some [0, 7] ∧
    (((Mining.Blockchain.construct demoTime 0).addBlock 0
        (Block.construct 7 demoTime demoData1 "" 0)).map
          fun bc => bc.chain.map Block.index) = some [0, 7] := by
  constructor
  · decide!
  · decide!

/-- Claim C9 (amended): after `addBlock(newBlock)` returns, the block stored at the
end of the chain, at the position that was the length of the chain before the
call, has the index the caller put in `newBlock`; `addBlock` assigns no index. -/
theorem append_keeps_index :
    (∀ (bc bc1 : Basic.Blockchain) (b : Block), bc.addBlock b = some bc1 →
      ∃ stored, bc1.chain[bc.chain.length]? = some stored ∧ stored.index = b.index) ∧
    (∀ (fuel : Nat) (bc bc1 : Mining.Blockchain) (b : Block), bc.addBlock fuel b = some bc1 →
      ∃ stored, bc1.chain[bc.chain.length]? = some stored ∧ stored.index = b.index) := by
  constructor
  · intro bc bc1 b h
    obtain ⟨latest, _, rfl⟩ := basic_addBlock_some bc bc1 b h
    exact ⟨_, List.getElem?_concat_length _ _, rfl⟩
  · intro fuel bc bc1 b h
    obtain ⟨latest, mined, _, hm, rfl⟩ := mining_addBlock_some fuel bc bc1 b h
    exact ⟨mined, List.getElem?_concat_length _ _, (mineBlock_result bc.difficulty fuel _ mined hm).2.2.1⟩

set_option maxRecDepth 100000 in
/-- Claim C9, witness: a block of index 7 appended to the chain of `runDemo`, at
position 3, and to the mined chain of difficulty 1, at position 3. -/
theorem append_keeps_index_witness :
    (∃ bc1 stored, basicDemoChain.addBlock (Block.construct 7 demoTime demoData1 "" 0)
        = some bc1 ∧
      bc1.chain[basicDemoChain.chain.length]? = some stored ∧ stored.index = 7) ∧
    (∃ bc1 stored, minedChain.addBlock 4 (Block.construct 7 demoTime (JSValue.num 20) "" 0)
        = some bc1 ∧
      bc1.chain[minedChain.chain.length]? = some stored ∧ stored.index = 7) := by
  have h1 : ∃ bc1, basicDemoChain.addBlock (Block.construct 7 demoTime demoData1 "" 0)
      = some bc1 := ⟨_, rfl⟩
  have h2 : ∃ bc1, minedChain.addBlock 4 (Block.construct 7 demoTime (JSValue.num 20) "" 0)
      = some bc1 := by
    cases h : minedChain.addBlock 4 (Block.construct 7 demoTime (JSValue.num 20) "" 0) with
    | none => exact absurd (congrArg Option.isSome h) (by decide!)
    | some bc1 => exact ⟨bc1, rfl⟩
  obtain ⟨bc1, h1⟩ := h1
  obtain ⟨bc2, h2⟩ := h2
  obtain ⟨s1, hs1⟩ := append_keeps_index.1 _ bc1 _ h1
  obtain ⟨s2, hs2⟩ := append_keeps_index.2 4 _ bc2 _ h2
  exact ⟨⟨bc1, s1, h1, hs1⟩, ⟨bc2, s2, h2, hs2⟩⟩

/-! ## C10: what `addBlock` changes -/

set_option maxRecDepth 100000 in
/-- Claim C10, counterexample: the block object stored at index 1 is handed to
`addBlock` again. The block that was already in the chain is rewritten: its
previous hash and its hash are other than before the call. -/
theorem stored_object_appended_again_rewritten :
    ∃ (s1 s2 : Basic.Store) (before after : Block),
      demoStore.addBlock 1 = some s1 ∧ s1.addBlock 1 = some s2 ∧
      s1.blocks[1]? = some before ∧ s2.blocks[1]? = some after ∧
      before.previousHash ≠ after.previousHash ∧ before.hash ≠ after.hash := by
  refine ⟨_, _, _, _, rfl, rfl, rfl, rfl, ?_, ?_⟩
  · decide!
  · decide!

/-- Claim C10 (amended): `addBlock` sets the `previousHash` of the object it is
handed to the stored hash of the last block of the chain, whatever the caller
supplied, pushes that object, so that the chain grows by exactly one with the
new block at the end, and leaves every other object, and the difficulty,
unchanged; the index, timestamp and data of the object stay. So for a block
object that is not already stored in the chain, every block that was in the
chain is unchanged. The basic `addBlock` returns exactly when the chain has a
last block. -/
theorem store_addBlock_relinks_and_appends :
    (∀ (s s1 : Basic.Store) (r : Nat), s.addBlock r = some s1 →
      ∃ latest, s.chain[s.chain.length - 1]? = some latest ∧
        (s1.heap r).previousHash = (s.heap latest).hash ∧
        s1.chain = s.chain ++ [r] ∧ s1.blocks.length = s.blocks.length + 1 ∧
        s1.blocks[s.blocks.length]? = some (s1.heap r) ∧
        (∀ r1, r1 ≠ r → s1.heap r1 = s.heap r1) ∧
        (s1.heap r).index = (s.heap r).index ∧ (s1.heap r).timestamp = (s.heap r).timestamp ∧
        (s1.heap r).data = (s.heap r).data ∧
        (r ∉ s.chain → s1.blocks = s.blocks ++ [s1.heap r])) ∧
    (∀ (s : Basic.Store) (r : Nat), (∃ s1, s.addBlock r = some s1) ↔ s.chain ≠ []) ∧
    (∀ (fuel : Nat) (s s1 : Mining.Store) (r : Nat), s.addBlock fuel r = some s1 →
      ∃ latest, s.chain[s.chain.length - 1]? = some latest ∧
        (s1.heap r).previousHash = (s.heap latest).hash ∧
        s1.chain = s.chain ++ [r] ∧ s1.blocks.length = s.blocks.length + 1 ∧
        s1.blocks[s.blocks.length]? = some (s1.heap r) ∧
        (∀ r1, r1 ≠ r → s1.heap r1 = s.heap r1) ∧
        s1.difficulty = s.difficulty ∧
        (s1.heap r).index = (s.heap r).index ∧ (s1.heap r).timestamp = (s.heap r).timestamp ∧
        (s1.heap r).data = (s.heap r).data ∧
        (r ∉ s.chain → s1.blocks = s.blocks ++ [s1.heap r])) := by
  refine ⟨?_, ?_, ?_⟩
  · intro s s1 r h
    obtain ⟨latest, hl, hc, hh, hrest⟩ := basic_store_addBlock_some s s1 r h
    refine ⟨latest, hl, by rw [hh], hc, ?_, ?_, hrest, by rw [hh], by rw [hh], by rw [hh], ?_⟩
    · simp [Basic.Store.blocks, hc]
    · simp only [Basic.Store.blocks, hc, List.map_append, List.map_cons, List.map_nil]
      have e : (List.map s.heap s.chain).length = (List.map s1.heap s.chain).length := by
        simp
      rw [e]
      exact List.getElem?_concat_length _ _
    · intro hr
      simp only [Basic.Store.blocks, hc, List.map_append, List.map_cons, List.map_nil,
        map_heap_congr s.chain s.heap s1.heap r hr hrest]
  · intro s r
    constructor
    · rintro ⟨s1, h⟩ hnil
      obtain ⟨latest, hl, _⟩ := basic_store_addBlock_some s s1 r h
      rw [hnil] at hl
      simp at hl
    · exact basic_store_addBlock_of_ne_nil s r
  · intro fuel s s1 r h
    obtain ⟨latest, mined, hl, hm, hc, hd, hh, hrest⟩ := mining_store_addBlock_some fuel s s1 r h
    obtain ⟨_, _, h3, h4, h5, h6⟩ := mineBlock_result s.difficulty fuel _ mined hm
    refine ⟨latest, hl, by rw [hh]; exact h6, hc, ?_, ?_, hrest, hd, by rw [hh]; exact h3,
      by rw [hh]; exact h4, by rw [hh]; exact h5, ?_⟩
    · simp [Mining.Store.blocks, hc]
    · simp only [Mining.Store.blocks, hc, List.map_append, List.map_cons, List.map_nil]
      have e : (List.map s.heap s.chain).length = (List.map s1.heap s.chain).length := by
        simp
      rw [e]
      exact List.getElem?_concat_length _ _
    · intro hr
      simp only [Mining.Store.blocks, hc, List.map_append, List.map_cons, List.map_nil,
        map_heap_congr s.chain s.heap s1.heap r hr hrest]

set_option maxRecDepth 100000 in
/-- Claim C10, witness: the new object behind reference 1, constructed with the
previous hash `""`, appended to the fresh basic chain and to the fresh mining chain
of difficulty 1: it is stored at index 1 with the genesis hash as its previous
hash, and block 0 is as before. -/
theorem store_addBlock_relinks_and_appends_witness :
    (∃ s1, demoStore.addBlock 1 = some s1 ∧
      (s1.heap 1).previousHash = genesisHash ∧ s1.chain = [0, 1] ∧
      s1.blocks = demoStore.blocks ++ [s1.heap 1]) ∧
    (∃ s1, minedStore.addBlock 4 1 = some s1 ∧
      (s1.heap 1).previousHash = genesisHash ∧ s1.chain = [0, 1] ∧ s1.difficulty = 1 ∧
      s1.blocks = minedStore.blocks ++ [s1.heap 1]) := by
  constructor
  · obtain ⟨latest, _, _, hc, _, _, _, _, _, _, hb⟩ :=
      store_addBlock_relinks_and_appends.1 demoStore _ 1 rfl
    exact ⟨_, rfl, by decide!, hc, hb (by decide)⟩
  · obtain ⟨latest, _, _, hc, _, _, _, hd, _, _, _, hb⟩ :=
      store_addBlock_relinks_and_appends.2.2 4 minedStore _ 1 rfl
    exact ⟨_, rfl, by decide!, hc, hd, hb (by decide)⟩

/-! ## C11: what mining leaves alone -/

/-- Claim C11: when `mineBlock(difficulty)` returns, the block has the index, the
timestamp, the data and the previous hash it had before the call; only the nonce
and the hash can be different. -/
theorem mineBlock_frame (difficulty fuel : Nat) (b mined : Block)
    (h : Block.mineBlock difficulty fuel b = some mined) :
    mined.index = b.index ∧ mined.timestamp = b.timestamp ∧ mined.data = b.data ∧
      mined.previousHash = b.previousHash :=
  (mineBlock_result difficulty fuel b mined h).2.2

set_option maxRecDepth 100000 in
/-- Claim C11, witness: at difficulty 1 the loop on `sampleBlock2` ends after two
iterations, with a new nonce and a new hash and the other four fields as
before. -/
theorem mineBlock_frame_witness :
    Block.mineBlock 1 5 sampleBlock2 = some sampleBlock2.mineStep.mineStep ∧
      (sampleBlock2.mineStep.mineStep.index = sampleBlock2.index ∧
        sampleBlock2.mineStep.mineStep.timestamp = sampleBlock2.timestamp ∧
        sampleBlock2.mineStep.mineStep.data = sampleBlock2.data ∧
        sampleBlock2.mineStep.mineStep.previousHash = sampleBlock2.previousHash) ∧
      sampleBlock2.mineStep.mineStep.nonce ≠ sampleBlock2.nonce ∧
      sampleBlock2.mineStep.mineStep.hash ≠ sampleBlock2.hash :=
  ⟨rfl, mineBlock_frame 1 5 sampleBlock2 _ rfl, by decide, by decide!⟩

/-! ## C12: the order of the mining search -/

theorem increment_of_lt {n : Nat} (h : n < 2 ^ 53) : increment n = n + 1 := by
  unfold increment
  rw [if_pos h]

/-- Mining from a block whose stored hash is its digest, when `n`, at most
`2 ^ 53`, is the least nonce from the current one on whose digest has the zeros:
the loop ends after exactly `n - b.nonce` iterations, in the block with nonce `n`
and that digest. -/
theorem mineBlock_search (d : Nat) :
    ∀ (k : Nat) (b : Block) (n : Nat), n - b.nonce = k → b.nonce ≤ n → n ≤ 2 ^ 53 →
      b.hash = b.calculateHash →
      startsWith ({ b with nonce := n } : Block).calculateHash (repeatChar '0' d) = true →
      (∀ m, b.nonce ≤ m → m < n →
        startsWith ({ b with nonce := m } : Block).calculateHash (repeatChar '0' d) = false) →
      Nat.iterate Block.mineStep k b
          = { b with nonce := n, hash := ({ b with nonce := n } : Block).calculateHash } ∧
        (∀ fuel, k ≤ fuel → Block.mineBlock d fuel b = some (Nat.iterate Block.mineStep k b)) ∧
        (∀ fuel, fuel < k → Block.mineBlock d fuel b = none) := by
  intro k
  induction k with
  | zero =>
    intro b n hk hle _ hb hgood _
    have hn : n = b.nonce := by omega
    subst hn
    have hs : startsWith b.hash (repeatChar '0' d) = true := by
      rw [hb]
      exact hgood
    refine ⟨?_, ?_, ?_⟩
    · obtain ⟨ix, ts, dt, ph, nc, hs⟩ := b
      simp only [Function.iterate_zero, id_eq, Block.mk.injEq, true_and]
      exact hb
    · intro fuel _
      exact mineBlock_of_startsWith d fuel b hs
    · intro fuel hf
      omega
  | succ k ih =>
    intro b n hk hle hmax hb hgood hleast
    have hlt : b.nonce < n := by omega
    have hs : startsWith b.hash (repeatChar '0' d) = false := by
      rw [hb]
      exact hleast b.nonce (le_refl _) hlt
    have hinc : b.mineStep.nonce = b.nonce + 1 := increment_of_lt (by omega)
    obtain ⟨h1, h2, h3⟩ := ih b.mineStep n (by rw [hinc]; omega) (by rw [hinc]; omega) hmax
      rfl hgood (fun m hm hmn => hleast m (by rw [hinc] at hm; omega) hmn)
    refine ⟨?_, ?_, ?_⟩
    · rw [Function.iterate_succ_apply, h1]
      rfl
    · intro fuel hf
      obtain ⟨fuel1, rfl⟩ : ∃ f, fuel = f + 1 := ⟨fuel - 1, by omega⟩
      rw [Function.iterate_succ_apply]
      unfold Block.mineBlock
      rw [if_neg (by simp [hs])]
      exact h2 fuel1 (by omega)
    · intro fuel hf
      cases fuel with
      | zero =>
        unfold Block.mineBlock
        rw [if_neg (by simp [hs])]
      | succ fuel1 =>
        unfold Block.mineBlock
        rw [if_neg (by simp [hs])]
        exact h3 fuel1 (by omega)

/-- A block that an iteration of the mining loop leaves as it is, and whose hash
lacks the zeros, is mined for ever. -/
theorem mineBlock_fixed_point (d : Nat) (b : Block) (hstep : b.mineStep = b)
    (hs : startsWith b.hash (repeatChar '0' d) = false) :
    ∀ fuel, Block.mineBlock d fuel b = none := by
  intro fuel
  induction fuel with
  | zero =>
    unfold Block.mineBlock
    rw [if_neg (by simp [hs])]
  | succ fuel ih =>
    unfold Block.mineBlock
    rw [if_neg (by simp [hs]), hstep]
    exact ih

set_option maxRecDepth 100000 in
/-- Claim C12, counterexample: `stuckBlock`, constructed with nonce `2 ^ 53`, has
the hash of its fields, and the nonce `2 ^ 53 + 20`, a Number, gives a digest
starting with `0`; but `nonce++` leaves `2 ^ 53` as it is, the loop recomputes
the same digest, and `mineBlock(1)` returns under no bound on its iterations. -/
theorem mineBlock_stuck_at_two_pow_53 :
    stuckBlock.hash = stuckBlock.calculateHash ∧
    (∃ n, stuckBlock.nonce ≤ n ∧ IsNumber n ∧
      startsWith ({ stuckBlock with nonce := n } : Block).calculateHash
        (repeatChar '0' 1) = true) ∧
    ∀ fuel, Block.mineBlock 1 fuel stuckBlock = none := by
  refine ⟨rfl, ⟨2 ^ 53 + 20, by decide, ⟨by decide!, by decide!⟩, by decide!⟩, ?_⟩
  exact mineBlock_fixed_point 1 stuckBlock rfl (by decide!)

/-- Claim C12 (amended): for a block whose stored hash is `calculateHash` of its
fields and a difficulty `d` for which some nonce `n` at or after the current one
and at most `2 ^ 53` gives a digest starting with `d` zeros, `mineBlock(d)` ends:
with the least such `n` as final nonce, the digest at that nonce as final hash,
after exactly `n - nonce` loop iterations (it returns under every bound of at
least that many iterations, and under no smaller bound), and with the same
result under every such bound. -/
theorem mineBlock_finds_least_nonce (d : Nat) (b : Block) (hb : b.hash = b.calculateHash)
    (hex : ∃ n, (b.nonce ≤ n ∧ n ≤ 2 ^ 53) ∧
      startsWith ({ b with nonce := n } : Block).calculateHash (repeatChar '0' d) = true) :
    ∃ (n : Nat) (mined : Block),
      b.nonce ≤ n ∧ n ≤ 2 ^ 53 ∧
      startsWith ({ b with nonce := n } : Block).calculateHash (repeatChar '0' d) = true ∧
      (∀ m, b.nonce ≤ m →
        startsWith ({ b with nonce := m } : Block).calculateHash (repeatChar '0' d) = true →
          n ≤ m) ∧
      mined.nonce = n ∧ mined.hash = ({ b with nonce := n } : Block).calculateHash ∧
      mined = Nat.iterate Block.mineStep (n - b.nonce) b ∧
      (∀ fuel, n - b.nonce ≤ fuel → Block.mineBlock d fuel b = some mined) ∧
      (∀ fuel, fuel < n - b.nonce → Block.mineBlock d fuel b = none) := by
  classical
  have hex2 : ∃ n, b.nonce ≤ n ∧
      startsWith ({ b with nonce := n } : Block).calculateHash (repeatChar '0' d) = true := by
    obtain ⟨n, ⟨h1, _⟩, h2⟩ := hex
    exact ⟨n, h1, h2⟩
  have hmin := Nat.find_spec hex2
  have hmax : Nat.find hex2 ≤ 2 ^ 53 := by
    obtain ⟨n, ⟨h1, h2⟩, h3⟩ := hex
    exact le_trans (Nat.find_min' hex2 ⟨h1, h3⟩) h2
  have hleast : ∀ m, b.nonce ≤ m → m < Nat.find hex2 →
      startsWith ({ b with nonce := m } : Block).calculateHash (repeatChar '0' d) = false := by
    intro m hm hlt
    cases hres : startsWith ({ b with nonce := m } : Block).calculateHash (repeatChar '0' d)
    · rfl
    · exact absurd ⟨hm, hres⟩ (Nat.find_min hex2 hlt)
  obtain ⟨h1, h2, h3⟩ := mineBlock_search d (Nat.find hex2 - b.nonce) b (Nat.find hex2) rfl
    hmin.1 hmax hb hmin.2 hleast
  refine ⟨Nat.find hex2, Nat.iterate Block.mineStep (Nat.find hex2 - b.nonce) b, hmin.1, hmax,
    hmin.2, ?_, ?_, ?_, rfl, h2, h3⟩
  · intro m hm hgood
    exact Nat.find_min' hex2 ⟨hm, hgood⟩
  · rw [h1]
  · rw [h1]

set_option maxRecDepth 100000 in
/-- Claim C12, witness: `sampleBlock2` at difficulty 1, where nonce 2 gives a digest
starting with `0`. -/
theorem mineBlock_finds_least_nonce_witness :
    ∃ (n : Nat) (mined : Block),
      sampleBlock2.nonce ≤ n ∧ n ≤ 2 ^ 53 ∧
      startsWith ({ sampleBlock2 with nonce := n } : Block).calculateHash
        (repeatChar '0' 1) = true ∧
      (∀ m, sampleBlock2.nonce ≤ m →
        startsWith ({ sampleBlock2 with nonce := m } : Block).calculateHash
          (repeatChar '0' 1) = true → n ≤ m) ∧
      mined.nonce = n ∧
      mined.hash = ({ sampleBlock2 with nonce := n } : Block).calculateHash ∧
      mined = Nat.iterate Block.mineStep (n - sampleBlock2.nonce) sampleBlock2 ∧
      (∀ fuel, n - sampleBlock2.nonce ≤ fuel →
        Block.mineBlock 1 fuel sampleBlock2 = some mined) ∧
      (∀ fuel, fuel < n - sampleBlock2.nonce → Block.mineBlock 1 fuel sampleBlock2 = none) :=
  mineBlock_finds_least_nonce 1 sampleBlock2 rfl ⟨2, ⟨by decide, by decide⟩, by decide!⟩

/-! ## C13: the fresh chain -/

/-- Claim C13: a freshly constructed `Blockchain`, of the basic class and of the
mining class with any difficulty, holds exactly one block, with index 0, previous
hash `"0"`, data `"Genesis Block"`, nonce 0 and as hash the digest of those
fields, and `isChainValid` returns `true` on it, whatever the difficulty and
whether or not the genesis hash starts with zeros. -/
theorem fresh_chain_genesis (now : String) :
    (∃ g : Block, (Basic.Blockchain.construct now).chain = [g] ∧
      g.index = 0 ∧ g.timestamp = now ∧ g.previousHash = "0" ∧
      g.data = JSValue.str "Genesis Block" ∧ g.nonce = 0 ∧ g.hash = g.calculateHash ∧
      (Basic.Blockchain.construct now).isChainValid = true) ∧
    (∀ difficulty : Nat, ∃ g : Block,
      (Mining.Blockchain.construct now difficulty).chain = [g] ∧
      (Mining.Blockchain.construct now difficulty).difficulty = difficulty ∧
      g.index = 0 ∧ g.timestamp = now ∧ g.previousHash = "0" ∧
      g.data = JSValue.str "Genesis Block" ∧ g.nonce = 0 ∧ g.hash = g.calculateHash ∧
      (Mining.Blockchain.construct now difficulty).isChainValid = true) := by
  constructor
  · exact ⟨Basic.createGenesisBlock now, rfl, rfl, rfl, rfl, rfl, rfl, rfl, rfl⟩
  · intro difficulty
    exact ⟨Mining.createGenesisBlock now, rfl, rfl, rfl, rfl, rfl, rfl, rfl, rfl, rfl⟩

set_option maxRecDepth 100000 in
/-- Claim C13, an instance: the fresh chain of difficulty 4 created at `demoTime` is
valid although the hash of its genesis block does not start with `0`. -/
theorem fresh_chain_genesis_witness :
    (∃ g : Block, (Mining.Blockchain.construct demoTime 4).chain = [g] ∧
      g.hash = genesisHash ∧ startsWith g.hash (repeatChar '0' 4) = false) ∧
    (Mining.Blockchain.construct demoTime 4).isChainValid = true := by
  obtain ⟨g, hc, _, _, _, _, _, _, _, hv⟩ := (fresh_chain_genesis demoTime).2 4
  refine ⟨⟨Mining.createGenesisBlock demoTime, rfl, ?_, ?_⟩, hv⟩
  · decide!
  · decide!

/-! ## C14: difficulty 0 -/

/-- Claim C14: on every list of blocks, `isChainValid` of the mining class with
difficulty 0 returns what `isChainValid` of the basic class returns. -/
theorem mining_difficulty_zero_eq_basic (blocks : List Block) :
    (Mining.Blockchain.mk blocks 0).isChainValid = (Basic.Blockchain.mk blocks).isChainValid := by
  unfold Mining.Blockchain.isChainValid Basic.Blockchain.isChainValid
  exact (basic_loop_eq_mining_loop blocks blocks.length 1).symm

theorem digitChar_toNat (k : Nat) (h : k < 10) : (Nat.digitChar k).toNat - 48 = k := by
  interval_cases k <;> rfl

theorem digitChar_isDigit (k : Nat) (h : k < 10) : (Nat.digitChar k).isDigit = true := by
  interval_cases k <;> rfl

theorem decimal_foldl (cs : List Char) (a : Nat) :
    cs.foldl (fun a c => 10 * a + (c.toNat - 48)) a = a * 10 ^ cs.length + decimalValue cs := by
  induction cs generalizing a with
  | nil => simp [decimalValue]
  | cons c cs ih =>
    unfold decimalValue
    rw [List.foldl_cons, List.foldl_cons, ih, ih (10 * 0 + (c.toNat - 48))]
    simp only [List.length_cons, pow_succ]
    ring

theorem toDigitsCore_value :
    ∀ (fuel n : Nat) (acc : List Char), n < fuel →
      decimalValue (Nat.toDigitsCore 10 fuel n acc) = n * 10 ^ acc.length + decimalValue acc := by
  intro fuel
  induction fuel with
  | zero => intro n acc h; omega
  | succ fuel ih =>
    intro n acc h
    have hd : decimalValue (Nat.digitChar (n % 10) :: acc)
        = (n % 10) * 10 ^ acc.length + decimalValue acc := by
      unfold decimalValue
      rw [List.foldl_cons, decimal_foldl, digitChar_toNat _ (Nat.mod_lt _ (by decide))]
      simp [decimalValue]
    unfold Nat.toDigitsCore
    by_cases h0 : n / 10 = 0
    · simp only [h0, if_true]
      rw [hd]
      have : n % 10 = n := by omega
      rw [this]
    · simp only [h0, if_false]
      rw [ih (n / 10) _ (by omega), hd, List.length_cons, pow_succ]
      have e : n * 10 ^ acc.length = (10 * (n / 10) + n % 10) * 10 ^ acc.length := by
        rw [Nat.div_add_mod]
      rw [e]
      ring

theorem decimalValue_toDigits (n : Nat) : decimalValue (Nat.toDigits 10 n) = n := by
  show decimalValue (Nat.toDigitsCore 10 (n + 1) n []) = n
  rw [toDigitsCore_value _ _ _ (by omega)]
  simp [decimalValue]

theorem toDigits_injective {n m : Nat} (h : Nat.toDigits 10 n = Nat.toDigits 10 m) : n = m := by
  rw [← decimalValue_toDigits n, ← decimalValue_toDigits m, h]

theorem toString_nat_injective {n m : Nat} (h : toString n = toString m) : n = m :=
  toDigits_injective (congrArg String.data h)

theorem toDigitsCore_isDigit :
    ∀ (fuel n : Nat) (acc : List Char), (∀ c ∈ acc, c.isDigit = true) →
      ∀ c ∈ Nat.toDigitsCore 10 fuel n acc, c.isDigit = true := by
  intro fuel
  induction fuel with
  | zero => intro n acc h; exact h
  | succ fuel ih =>
    intro n acc h
    have hacc : ∀ c ∈ Nat.digitChar (n % 10) :: acc, c.isDigit = true := by
      intro c hc
      rcases List.mem_cons.mp hc with rfl | hc
      · exact digitChar_isDigit _ (Nat.mod_lt _ (by decide))
      · exact h c hc
    unfold Nat.toDigitsCore
    by_cases h0 : n / 10 = 0
    · simp only [h0, if_true]
      exact hacc
    · simp only [h0, if_false]
      exact ih _ _ hacc

theorem toDigits_isDigit (n : Nat) : ∀ c ∈ Nat.toDigits 10 n, c.isDigit = true :=
  toDigitsCore_isDigit (n + 1) n [] (by simp)

theorem toDigitsCore_length_ge :
    ∀ (fuel n : Nat) (acc : List Char), acc.length ≤ (Nat.toDigitsCore 10 fuel n acc).length := by
  intro fuel
  induction fuel with
  | zero => intro n acc; exact le_refl _
  | succ fuel ih =>
    intro n acc
    unfold Nat.toDigitsCore
    by_cases h0 : n / 10 = 0
    · simp only [h0, if_true, List.length_cons]
      omega
    · simp only [h0, if_false]
      have := ih (n / 10) (Nat.digitChar (n % 10) :: acc)
      simp only [List.length_cons] at this
      omega

theorem digitCount_pos (n : Nat) : 0 < digitCount n := by
  show 0 < (Nat.toDigitsCore 10 (n + 1) n []).length
  unfold Nat.toDigitsCore
  by_cases h0 : n / 10 = 0
  · simp [h0]
  · simp only [h0, if_false]
    have := toDigitsCore_length_ge n (n / 10) [Nat.digitChar (n % 10)]
    simp only [List.length_cons, List.length_nil] at this
    omega

theorem toDigits_eq_significant (v : Nat) :
    Nat.toDigits 10 v
      = significantDigits v ++ List.replicate (digitCount v - (significantDigits v).length) '0' := by
  have hsplit := List.takeWhile_append_dropWhile (fun c => decide (c = '0'))
    (Nat.toDigits 10 v).reverse
  have hzeros : ∀ c ∈ ((Nat.toDigits 10 v).reverse.takeWhile fun c => decide (c = '0')),
      c = '0' := by
    intro c hc
    simpa using List.mem_takeWhile_imp hc
  have hrep := List.eq_replicate_of_mem hzeros
  have hrev : Nat.toDigits 10 v
      = ((Nat.toDigits 10 v).reverse.dropWhile fun c => decide (c = '0')).reverse
        ++ ((Nat.toDigits 10 v).reverse.takeWhile fun c => decide (c = '0')).reverse := by
    rw [← List.reverse_append, hsplit, List.reverse_reverse]
  have hlen := congrArg List.length hrev
  rw [List.length_append, List.length_reverse, List.length_reverse] at hlen
  unfold significantDigits digitCount
  rw [List.length_reverse]
  conv_lhs => rw [hrev, hrep, List.reverse_replicate]
  congr 2
  omega

theorem mantissa_injective {a b : List Char} (h : mantissa a = mantissa b) : a = b := by
  match a, b with
  | [], [] => rfl
  | [], [_] => simp [mantissa] at h
  | [], _ :: _ :: _ => simp [mantissa] at h
  | [_], [] => simp [mantissa] at h
  | [_], [_] => simpa [mantissa] using h
  | [_], _ :: _ :: _ => simp [mantissa] at h
  | _ :: _ :: _, [] => simp [mantissa] at h
  | _ :: _ :: _, [_] => simp [mantissa] at h
  | _ :: _ :: _, _ :: _ :: _ => simpa [mantissa] using h

theorem significantDigits_isDigit (v : Nat) : ∀ c ∈ significantDigits v, c.isDigit = true := by
  intro c hc
  unfold significantDigits at hc
  rw [List.mem_reverse] at hc
  have := (List.dropWhile_sublist _).subset hc
  rw [List.mem_reverse] at this
  exact toDigits_isDigit v c this

theorem not_mem_mantissa (v : Nat) : 'e' ∉ mantissa (significantDigits v) := by
  intro h
  have hd := significantDigits_isDigit v
  match hs : significantDigits v with
  | [] => rw [hs] at h; simp [mantissa] at h
  | [d] =>
    rw [hs] at h hd
    simp only [mantissa, List.mem_singleton] at h
    have := hd d (by simp)
    rw [← h] at this
    exact absurd this (by decide)
  | d :: e :: rest =>
    rw [hs] at h hd
    simp only [mantissa, List.mem_cons] at h
    rcases h with h | h | h | h
    · have := hd d (by simp)
      rw [← h] at this
      exact absurd this (by decide)
    · exact absurd h (by decide)
    · have := hd e (by simp)
      rw [← h] at this
      exact absurd this (by decide)
    · have := hd 'e' (by simp [h])
      exact absurd this (by decide)

theorem exponentText_injective {v w : Nat} (h : exponentText v = exponentText w) : v = w := by
  have hdata := congrArg String.data h
  simp only [exponentText] at hdata
  have hz : 'e' ∉ '+' :: Nat.toDigits 10 (digitCount v - 1) := by
    intro hm
    rcases List.mem_cons.mp hm with h1 | h1
    · exact absurd h1 (by decide)
    · exact absurd (toDigits_isDigit _ _ h1) (by decide)
  obtain ⟨hm, _, he⟩ := (List.append_cons_inj_of_not_mem (not_mem_mantissa v) hz).mp hdata
  have hsig := mantissa_injective hm
  have hcount : digitCount v = digitCount w := by
    have h1 := toDigits_injective (List.cons_injective he)
    have h2 := digitCount_pos v
    have h3 := digitCount_pos w
    omega
  apply toDigits_injective
  rw [toDigits_eq_significant v, toDigits_eq_significant w, hsig, hcount]

theorem toString_ne_exponentText (v w : Nat) : toString v ≠ exponentText w := by
  intro h
  have hdata := congrArg String.data h
  have hmem : 'e' ∈ (exponentText w).data := by simp [exponentText]
  rw [← hdata] at hmem
  exact absurd (toDigits_isDigit v 'e' hmem) (by decide)

theorem shortestAt_sound {x len k v : Nat} (h : shortestAt x len k = some v) :
    roundToDouble v = x := by
  unfold shortestAt at h
  simp only [Bool.and_eq_true, decide_eq_true_eq] at h
  split_ifs at h with h1 h2 h3 h4 h5 h6 <;> cases h
  · exact h1.1
  · exact h1.2
  · exact h1.1
  · exact h1.2
  · exact h5
  · exact h6

theorem shortestFrom_sound (x len : Nat) (hx : roundToDouble x = x) :
    ∀ fuel k, roundToDouble (shortestFrom x len fuel k) = x := by
  intro fuel
  induction fuel with
  | zero => intro k; exact hx
  | succ fuel ih =>
    intro k
    unfold shortestFrom
    split
    · next v hv => exact shortestAt_sound hv
    · exact ih (k + 1)

/-- The text of a Number is the text of an integer that converts to it. -/
theorem numberText_cases (x : Nat) (hx : roundToDouble x = x) :
    ∃ v, roundToDouble v = x ∧ (numberText x = toString v ∨ numberText x = exponentText v) := by
  unfold numberText
  by_cases h : x < 2 ^ 53
  · exact ⟨x, hx, Or.inl (by rw [if_pos h])⟩
  · refine ⟨shortestDecimal x, shortestFrom_sound x _ hx 17 1, ?_⟩
    rw [if_neg h]
    simp only []
    split_ifs
    · exact Or.inl rfl
    · exact Or.inr rfl

theorem numberText_injective {x y : Nat} (hx : IsNumber x) (hy : IsNumber y)
    (h : numberText x = numberText y) : x = y := by
  obtain ⟨v, hv, hvt⟩ := numberText_cases x hx.1
  obtain ⟨w, hw, hwt⟩ := numberText_cases y hy.1
  rcases hvt with hvt | hvt <;> rcases hwt with hwt | hwt
  · have := toString_nat_injective (hvt.symm.trans (h.trans hwt))
    rw [← hv, ← hw, this]
  · exact absurd (hvt.symm.trans (h.trans hwt)) (toString_ne_exponentText v w)
  · exact absurd (hwt.symm.trans (h.symm.trans hvt)) (toString_ne_exponentText w v)
  · have := exponentText_injective (hvt.symm.trans (h.trans hwt))
    rw [← hv, ← hw, this]

/-! ## C15: the text the digest is taken of -/

/-- Claim C15: `calculateHash` is SHA-256 of the text
`index ++ timestamp ++ JSON.stringify(data) ++ previousHash ++ nonce`, index and
nonce in the decimal text JavaScript gives a number; the text does not depend on
the stored hash; changing exactly one of index, timestamp, previous hash or nonce
to a different value changes the text; changing only the data changes the text
exactly when the serialized text of the data changes. Index and nonce range over
the Numbers that hold non-negative integers. -/
theorem hashInput_single_field (b : Block) (hindex : IsNumber b.index)
    (hnonce : IsNumber b.nonce) :
    b.calculateHash = sha256 (numberText b.index ++ b.timestamp ++ b.data.jsonText ++
      b.previousHash ++ numberText b.nonce) ∧
    (∀ h : String, ({ b with hash := h } : Block).hashInput = b.hashInput) ∧
    (∀ i : Nat, IsNumber i → i ≠ b.index →
      ({ b with index := i } : Block).hashInput ≠ b.hashInput) ∧
    (∀ t : String, t ≠ b.timestamp →
      ({ b with timestamp := t } : Block).hashInput ≠ b.hashInput) ∧
    (∀ p : String, p ≠ b.previousHash →
      ({ b with previousHash := p } : Block).hashInput ≠ b.hashInput) ∧
    (∀ n : Nat, IsNumber n → n ≠ b.nonce →
      ({ b with nonce := n } : Block).hashInput ≠ b.hashInput) ∧
    (∀ d : JSValue, ({ b with data := d } : Block).hashInput ≠ b.hashInput ↔
      d.jsonText ≠ b.data.jsonText) := by
  refine ⟨rfl, fun _ => rfl, ?_, ?_, ?_, ?_, ?_⟩
  · intro i hnum hi h
    exact hi (numberText_injective hnum hindex (string_append_right_cancel
      (string_append_right_cancel (string_append_right_cancel (string_append_right_cancel h)))))
  · intro t ht h
    exact ht (string_append_left_cancel (string_append_right_cancel
      (string_append_right_cancel (string_append_right_cancel h))))
  · intro p hp h
    exact hp (string_append_left_cancel (string_append_right_cancel h))
  · intro n hnum hn h
    exact hn (numberText_injective hnum hnonce (string_append_left_cancel h))
  · intro d
    constructor
    · intro h hd
      apply h
      show numberText b.index ++ b.timestamp ++ d.jsonText ++ b.previousHash
          ++ numberText b.nonce
        = numberText b.index ++ b.timestamp ++ b.data.jsonText ++ b.previousHash
          ++ numberText b.nonce
      rw [hd]
    · intro hd h
      exact hd (string_append_left_cancel (string_append_right_cancel
        (string_append_right_cancel h)))

set_option maxRecDepth 100000 in
/-- Claim C15, witness: a block with index `1e21` and nonce `2 ** 53`, whose digest
text starts with `1e+21` and ends with `9007199254740992`; setting the index to
`1e21 + 131072`, the next Number, or the nonce to `2 ** 53 + 2` changes the
text. -/
theorem hashInput_single_field_witness :
    (IsNumber (10 ^ 21) ∧ IsNumber (2 ^ 53) ∧ IsNumber (10 ^ 21 + 131072) ∧
      IsNumber (2 ^ 53 + 2)) ∧
    largeNumberBlock.hashInput = "1e+212024-01-01T00:00:00.000Znullp9007199254740992" ∧
    ({ largeNumberBlock with index := 10 ^ 21 + 131072 } : Block).hashInput
      ≠ largeNumberBlock.hashInput ∧
    ({ largeNumberBlock with nonce := 2 ^ 53 + 2 } : Block).hashInput
      ≠ largeNumberBlock.hashInput := by
  have h1 : IsNumber (10 ^ 21) := ⟨by decide!, by decide!⟩
  have h2 : IsNumber (2 ^ 53) := ⟨by decide!, by decide!⟩
  have h3 : IsNumber (10 ^ 21 + 131072) := ⟨by decide!, by decide!⟩
  have h4 : IsNumber (2 ^ 53 + 2) := ⟨by decide!, by decide!⟩
  have h := hashInput_single_field largeNumberBlock h1 h2
  exact ⟨⟨h1, h2, h3, h4⟩, by decide!, h.2.2.1 _ h3 (by decide), h.2.2.2.2.2.1 _ h4 (by decide)⟩

theorem retamper_getElem?_self (chain : List Block) (i : Nat) (d : JSValue) :
    (rehash (setData chain i d) i)[i]? = (chain[i]?).map fun b =>
      { b with data := d, hash := ({ b with data := d } : Block).calculateHash } := by
  simp only [rehash, setData, List.getElem?_modify_eq, Option.map_eq_map, Option.map_map]
  rfl

theorem retamper_getElem?_ne (chain : List Block) {i j : Nat} (d : JSValue) (h : i ≠ j) :
    (rehash (setData chain i d) i)[j]? = chain[j]? := by
  simp only [rehash, setData, List.getElem?_modify_ne _ _ h]

/-- A block appended by the basic `addBlock` passes the checks against the block
it is linked to. -/
theorem basic_appended_checked (b latest : Block) :
    Checked 0 latest { b with
      previousHash := latest.hash
      hash := ({ b with previousHash := latest.hash } : Block).calculateHash } :=
  ⟨rfl, rfl, startsWith_repeat_zero _ _⟩

theorem basic_addBlock_valid (bc bc1 : Basic.Blockchain) (b : Block)
    (hv : bc.isChainValid = true) (h : bc.addBlock b = some bc1) :
    bc1.isChainValid = true := by
  obtain ⟨latest, hl, rfl⟩ := basic_addBlock_some bc bc1 b h
  rw [basic_isChainValid_iff]
  exact neighbours_append (Checked 0) bc.chain latest _ ((basic_isChainValid_iff bc).mp hv) hl
    (basic_appended_checked b latest)

/-! ## C16: appending to the basic chain keeps it valid -/

set_option maxRecDepth 100000 in
/-- Claim C16, counterexample: in the basic class one block object is appended
twice to a fresh chain. After the first `addBlock` the chain is valid; the second
relinks the object stored at index 1 to its own former hash, and `isChainValid`
returns `false`. And on the chain with no block, on which `isChainValid` returns
`true`, `addBlock` throws. -/
theorem same_object_appended_twice_invalid :
    (∃ s1 s2 : Basic.Store, demoStore.addBlock 1 = some s1 ∧ s1.isChainValid = true ∧
      s1.addBlock 1 = some s2 ∧ s2.chain = [0, 1, 1] ∧ s2.isChainValid = false) ∧
    ((Basic.Store.mk demoStore.heap []).isChainValid = true ∧
      (Basic.Store.mk demoStore.heap []).addBlock 1 = none) := by
  refine ⟨⟨_, _, rfl, ?_, rfl, rfl, ?_⟩, rfl, rfl⟩
  · decide!
  · decide!

/-- Claim C16 (amended): in the basic class, for every chain on which
`isChainValid` returns `true` and every block object that is not already stored
in the chain (with any index, timestamp, data, previous hash and nonce), when
`addBlock` returns, `isChainValid` returns `true` afterwards, the appended block
is the last of the chain, its hash is `calculateHash` of its fields and its nonce
is unchanged. `addBlock` returns exactly when the chain has a last block; on the
chain with no block it throws. Hence every chain built from a fresh chain by
`addBlock` of distinct objects other than the genesis object is built without an
exception and is valid. -/
theorem store_append_keeps_valid :
    (∀ (s s1 : Basic.Store) (r : Nat), s.isChainValid = true → r ∉ s.chain →
      s.addBlock r = some s1 →
      s1.isChainValid = true ∧ s1.blocks[s.blocks.length]? = some (s1.heap r) ∧
        (s1.heap r).hash = (s1.heap r).calculateHash ∧
        (s1.heap r).nonce = (s.heap r).nonce) ∧
    (∀ (s : Basic.Store) (r : Nat), (∃ s1, s.addBlock r = some s1) ↔ s.chain ≠ []) ∧
    (∀ (heap : Nat → Block) (g : Nat) (now : String) (refs : List Nat),
      refs.Nodup → g ∉ refs →
      ∃ s, (Basic.Store.construct heap g now).addBlocks refs = some s ∧
        s.isChainValid = true) := by
  refine ⟨?_, ?_, ?_⟩
  · intro s s1 r hv hr h
    have hsim := basic_store_addBlock_fresh s s1 r h hr
    obtain ⟨latest, _, hc, hh, hrest⟩ := basic_store_addBlock_some s s1 r h
    refine ⟨basic_addBlock_valid ⟨s.blocks⟩ ⟨s1.blocks⟩ (s.heap r) hv hsim, ?_, ?_, ?_⟩
    · have e : s1.blocks = s.blocks ++ [s1.heap r] := by
        simp only [Basic.Store.blocks, hc, List.map_append, List.map_cons, List.map_nil,
          map_heap_congr s.chain s.heap s1.heap r hr hrest]
      rw [e]
      exact List.getElem?_concat_length _ _
    · rw [hh]
      rfl
    · rw [hh]
  · intro s r
    constructor
    · rintro ⟨s1, h⟩ hnil
      obtain ⟨latest, hl, _⟩ := basic_store_addBlock_some s s1 r h
      rw [hnil] at hl
      simp at hl
    · exact basic_store_addBlock_of_ne_nil s r
  · intro heap g now refs hnd hg
    obtain ⟨s, hs⟩ := basic_store_addBlocks_of_ne_nil refs (Basic.Store.construct heap g now)
      (by simp [Basic.Store.construct])
    refine ⟨s, hs, ?_⟩
    have hsim := basic_store_addBlocks_fresh refs _ s hs hnd
      (by
        intro r hr hmem
        simp only [Basic.Store.construct, List.mem_singleton] at hmem
        exact hg (hmem ▸ hr))
    rw [basic_store_construct_blocks] at hsim
    have hreach := basic_addBlocks_reachable now _ _ _ Basic.Reachable.fresh hsim
    have hvalid : ∀ bc, Basic.Reachable now bc → bc.isChainValid = true := by
      intro bc hr
      induction hr with
      | fresh => rfl
      | step bc bc1 b _ hadd ih => exact basic_addBlock_valid bc bc1 b ih hadd
    exact hvalid _ hreach

set_option maxRecDepth 100000 in
/-- Claim C16, witness: the new objects behind the references 1 and 2 appended one
after the other to the fresh basic chain. -/
theorem store_append_keeps_valid_witness :
    ∃ s1 s2 : Basic.Store, demoStore.addBlock 1 = some s1 ∧ s1.isChainValid = true ∧
      s1.addBlock 2 = some s2 ∧ s2.isChainValid = true ∧
      (s2.heap 2).hash = (s2.heap 2).calculateHash ∧ (s2.heap 2).nonce = 0 := by
  have h1 : ∃ s1, demoStore.addBlock 1 = some s1 := ⟨_, rfl⟩
  obtain ⟨s1, h1⟩ := h1
  have hv0 : demoStore.isChainValid = true := rfl
  have hv1 := (store_append_keeps_valid.1 demoStore s1 1 hv0 (by decide) h1).1
  have hc1 : s1.chain = [0, 1] := by
    have : (demoStore.addBlock 1).map Basic.Store.chain = some [0, 1] := rfl
    rw [h1] at this
    exact Option.some.inj this
  have hn1 : (s1.heap 2).nonce = 0 := by
    have : (demoStore.addBlock 1).map (fun s => (s.heap 2).nonce) = some 0 := rfl
    rw [h1] at this
    exact Option.some.inj this
  obtain ⟨s2, h2⟩ := (store_append_keeps_valid.2.1 s1 2).mpr (by rw [hc1]; simp)
  obtain ⟨hv2, _, hh, hn⟩ := store_append_keeps_valid.1 s1 s2 2 hv1 (by rw [hc1]; decide) h2
  exact ⟨s1, s2, h1, hv1, h2, hv2, hh, hn.trans hn1⟩

/-! ## C17: tampering with re-hashing in the middle of the chain -/

/-- Claim C17: in a valid chain, for a block `bi` at index `i` that has a successor
(so for every `i` with `1 ≤ i < n - 1`, and for `i = 0` as well), overwriting the
data of block `i` and setting its hash to the recomputed `calculateHash`, when
that changes the stored hash of block `i`, makes `isChainValid` return `false`:
block `i + 1` still holds the former hash as its previous hash. Both for the
basic and for the mining validator. -/
theorem rehashed_tamper_breaks_link :
    (∀ (bc : Basic.Blockchain) (i : Nat) (bi next : Block) (d : JSValue),
      bc.isChainValid = true → bc.chain[i]? = some bi → bc.chain[i + 1]? = some next →
      ({ bi with data := d } : Block).calculateHash ≠ bi.hash →
      ({ bc with chain := rehash (setData bc.chain i d) i } :
        Basic.Blockchain).isChainValid = false) ∧
    (∀ (bc : Mining.Blockchain) (i : Nat) (bi next : Block) (d : JSValue),
      bc.isChainValid = true → bc.chain[i]? = some bi → bc.chain[i + 1]? = some next →
      ({ bi with data := d } : Block).calculateHash ≠ bi.hash →
      ({ bc with chain := rehash (setData bc.chain i d) i } :
        Mining.Blockchain).isChainValid = false) := by
  constructor
  · intro bc i bi next d hv hb hn hne
    have hold := ((basic_isChainValid_iff bc).mp hv (i + 1) next bi (by omega) hn hb).2.1
    cases hres : ({ bc with chain := rehash (setData bc.chain i d) i } :
        Basic.Blockchain).isChainValid
    · rfl
    · exfalso
      have hnew := ((basic_isChainValid_iff _).mp hres (i + 1) next _ (by omega)
        (by rw [retamper_getElem?_ne _ _ (by omega)]; exact hn)
        (by
          show (rehash (setData bc.chain i d) i)[i]? = _
          rw [retamper_getElem?_self, hb]
          rfl)).2.1
      exact hne (hnew.symm.trans hold)
  · intro bc i bi next d hv hb hn hne
    have hold := ((mining_isChainValid_iff bc).mp hv (i + 1) next bi (by omega) hn hb).2.1
    cases hres : ({ bc with chain := rehash (setData bc.chain i d) i } :
        Mining.Blockchain).isChainValid
    · rfl
    · exfalso
      have hnew := ((mining_isChainValid_iff _).mp hres (i + 1) next _ (by omega)
        (by rw [retamper_getElem?_ne _ _ (by omega)]; exact hn)
        (by
          show (rehash (setData bc.chain i d) i)[i]? = _
          rw [retamper_getElem?_self, hb]
          rfl)).2.1
      exact hne (hnew.symm.trans hold)

set_option maxRecDepth 100000 in
/-- Claim C17, witness: block 1 of the chain of `runDemo` and block 1 of the mined
chain of difficulty 1, each of three blocks, overwritten with the payload of
`runDemo` and re-hashed. -/
theorem rehashed_tamper_breaks_link_witness :
    ({ basicDemoChain with chain := rehash (setData basicDemoChain.chain 1 tamperedData) 1 } :
      Basic.Blockchain).isChainValid = false ∧
    ({ minedChain with chain := rehash (setData minedChain.chain 1 tamperedData) 1 } :
      Mining.Blockchain).isChainValid = false :=
  ⟨rehashed_tamper_breaks_link.1 basicDemoChain 1 basicDemoChain.chain[1]
      basicDemoChain.chain[2] tamperedData basicDemoChain_valid rfl rfl (by decide!),
    rehashed_tamper_breaks_link.2 minedChain 1 minedChain.chain[1]
      minedChain.chain[2] tamperedData minedChain_valid rfl rfl (by decide!)⟩

/-! ## C18: tampering the head, and the genesis data -/

/-- Claim C18: in the basic class, on a valid chain of at least 2 blocks,
overwriting the data of the last block with any value and setting its hash to the
recomputed `calculateHash` leaves `isChainValid` at `true`; and overwriting the
data of the genesis block, its stored hash untouched, leaves the result of
`isChainValid` as it was, on every chain. -/
theorem head_tamper_undetected :
    (∀ (bc : Basic.Blockchain) (d : JSValue), bc.isChainValid = true → 2 ≤ bc.chain.length →
      ({ bc with
          chain := rehash (setData bc.chain (bc.chain.length - 1) d) (bc.chain.length - 1) } :
        Basic.Blockchain).isChainValid = true) ∧
    (∀ (bc : Basic.Blockchain) (d : JSValue),
      ({ bc with chain := setData bc.chain 0 d } : Basic.Blockchain).isChainValid
        = bc.isChainValid) := by
  constructor
  · intro bc d hv hlen
    have hold := (basic_isChainValid_iff bc).mp hv
    rw [basic_isChainValid_iff]
    intro j cur prev hj hc hp
    have hpj : (rehash (setData bc.chain (bc.chain.length - 1) d) (bc.chain.length - 1))[j - 1]?
        = bc.chain[j - 1]? := by
      by_cases hlast : bc.chain.length - 1 = j - 1
      · have hjlt : j < (rehash (setData bc.chain (bc.chain.length - 1) d)
            (bc.chain.length - 1)).length := (List.getElem?_eq_some_iff.mp hc).1
        simp only [rehash, setData, List.length_modify] at hjlt
        omega
      · exact retamper_getElem?_ne _ _ hlast
    rw [hpj] at hp
    by_cases hlast : bc.chain.length - 1 = j
    · subst hlast
      rw [retamper_getElem?_self] at hc
      cases hcur : bc.chain[bc.chain.length - 1]? with
      | none => rw [hcur] at hc; cases hc
      | some old =>
        rw [hcur] at hc
        cases hc
        have := hold _ old prev hj hcur hp
        exact ⟨rfl, this.2.1, startsWith_repeat_zero _ _⟩
    · rw [retamper_getElem?_ne _ _ hlast] at hc
      exact hold j cur prev hj hc hp
  · intro bc d
    rw [Bool.eq_iff_iff, basic_isChainValid_iff, basic_isChainValid_iff]
    have hcur : ∀ j : Nat, 1 ≤ j → (setData bc.chain 0 d)[j]? = bc.chain[j]? := fun j hj =>
      setData_getElem?_ne _ _ (by omega)
    have hprev : ∀ (j : Nat) (prev : Block), (setData bc.chain 0 d)[j]? = some prev →
        ∃ p : Block, bc.chain[j]? = some p ∧ p.hash = prev.hash := by
      intro j prev hp
      by_cases h0 : 0 = j
      · subst h0
        rw [setData_getElem?_self] at hp
        cases hg : bc.chain[0]? with
        | none => rw [hg] at hp; cases hp
        | some g =>
          rw [hg] at hp
          cases hp
          exact ⟨g, rfl, rfl⟩
      · rw [setData_getElem?_ne _ _ h0] at hp
        exact ⟨prev, hp, rfl⟩
    have hprev2 : ∀ (j : Nat) (p : Block), bc.chain[j]? = some p →
        ∃ prev : Block, (setData bc.chain 0 d)[j]? = some prev ∧ prev.hash = p.hash := by
      intro j p hp
      by_cases h0 : 0 = j
      · subst h0
        exact ⟨{ p with data := d }, by rw [setData_getElem?_self, hp]; rfl, rfl⟩
      · exact ⟨p, by rw [setData_getElem?_ne _ _ h0]; exact hp, rfl⟩
    constructor
    · intro h j cur p hj hc hp
      obtain ⟨prev, hp2, hh⟩ := hprev2 (j - 1) p hp
      obtain ⟨h1, h2, h3⟩ := h j cur prev hj (by rw [hcur j hj]; exact hc) hp2
      exact ⟨h1, h2.trans hh, h3⟩
    · intro h j cur prev hj hc hp
      obtain ⟨p, hp2, hh⟩ := hprev (j - 1) prev hp
      obtain ⟨h1, h2, h3⟩ := h j cur p hj (by rw [← hcur j hj]; exact hc) hp2
      exact ⟨h1, h2.trans hh, h3⟩

set_option maxRecDepth 100000 in
/-- Claim C18, witness: the last block of the chain of `runDemo` overwritten with
the payload of `runDemo` and re-hashed; its stored hash has changed and the chain
is still valid. -/
theorem head_tamper_undetected_witness :
    ({ basicDemoChain with chain := rehash (setData basicDemoChain.chain 2 tamperedData) 2 } :
      Basic.Blockchain).isChainValid = true ∧
    ((rehash (setData basicDemoChain.chain 2 tamperedData) 2)[2]?).map Block.hash
      ≠ (basicDemoChain.chain[2]?).map Block.hash :=
  ⟨head_tamper_undetected.1 basicDemoChain tamperedData basicDemoChain_valid (by decide),
    by decide!⟩

/-! ## C19: the digest text does not separate the fields -/

/-- Claim C19: the five fields are concatenated without separators, so blocks that
differ in two fields can have the same digest text and with it the same hash:
index 1 with timestamp `"23"` against index 12 with timestamp `"3"`, and previous
hash `"a"` with nonce 11 against previous hash `"a1"` with nonce 1, all other
fields equal. -/
theorem hashInput_not_injective :
    (∀ (d : JSValue) (p : String) (n : Nat) (h : String),
      Block.hashInput ⟨1, "23", d, p, n, h⟩ = Block.hashInput ⟨12, "3", d, p, n, h⟩ ∧
      Block.calculateHash ⟨1, "23", d, p, n, h⟩ = Block.calculateHash ⟨12, "3", d, p, n, h⟩) ∧
    (∀ (i : Nat) (t : String) (d : JSValue) (h : String),
      Block.hashInput ⟨i, t, d, "a", 11, h⟩ = Block.hashInput ⟨i, t, d, "a1", 1, h⟩ ∧
      Block.calculateHash ⟨i, t, d, "a", 11, h⟩ = Block.calculateHash ⟨i, t, d, "a1", 1, h⟩) := by
  have e1 : numberText 1 ++ "23" = numberText 12 ++ "3" := by decide
  have e2 : "a" ++ numberText 11 = "a1" ++ numberText 1 := by decide
  have h1 : ∀ (d : JSValue) (p : String) (n : Nat) (h : String),
      Block.hashInput ⟨1, "23", d, p, n, h⟩ = Block.hashInput ⟨12, "3", d, p, n, h⟩ := by
    intro d p n h
    show numberText 1 ++ "23" ++ d.jsonText ++ p ++ numberText n
      = numberText 12 ++ "3" ++ d.jsonText ++ p ++ numberText n
    rw [e1]
  have h2 : ∀ (i : Nat) (t : String) (d : JSValue) (h : String),
      Block.hashInput ⟨i, t, d, "a", 11, h⟩ = Block.hashInput ⟨i, t, d, "a1", 1, h⟩ := by
    intro i t d h
    show numberText i ++ t ++ d.jsonText ++ "a" ++ numberText 11
      = numberText i ++ t ++ d.jsonText ++ "a1" ++ numberText 1
    rw [String.append_assoc _ "a", String.append_assoc _ "a1", e2]
  exact ⟨fun d p n h => ⟨h1 d p n h, congrArg sha256 (h1 d p n h)⟩,
    fun i t d h => ⟨h2 i t d h, congrArg sha256 (h2 i t d h)⟩⟩

/-! ## C20: consensus selection -/

/-- Claim C20: in `simulatePoW`, `simulatePoS` and `simulateDPoS`, for all values of
the three candidates, the selected candidate is one of the list whose value
(power, stake, votes) is at least that of every candidate, and every candidate
with the same value stands at its position or earlier: among equals the latest is
selected. -/
theorem selection_picks_latest_maximum (r1 r2 r3 : Nat) :
    (∃ (selected : Consensus.Miner) (j : Nat),
      Consensus.simulatePoW r1 r2 r3 = some selected ∧
      (Consensus.miners r1 r2 r3)[j]? = some selected ∧
      ∀ (i : Nat) (c : Consensus.Miner), (Consensus.miners r1 r2 r3)[i]? = some c →
        c.power ≤ selected.power ∧ (c.power = selected.power → i ≤ j)) ∧
    (∃ (selected : Consensus.Staker) (j : Nat),
      Consensus.simulatePoS r1 r2 r3 = some selected ∧
      (Consensus.stakers r1 r2 r3)[j]? = some selected ∧
      ∀ (i : Nat) (c : Consensus.Staker), (Consensus.stakers r1 r2 r3)[i]? = some c →
        c.stake ≤ selected.stake ∧ (c.stake = selected.stake → i ≤ j)) ∧
    (∃ (selected : Consensus.Delegate) (j : Nat),
      Consensus.simulateDPoS r1 r2 r3 = some selected ∧
      (Consensus.delegates r1 r2 r3)[j]? = some selected ∧
      ∀ (i : Nat) (c : Consensus.Delegate), (Consensus.delegates r1 r2 r3)[i]? = some c →
        c.votes ≤ selected.votes ∧ (c.votes = selected.votes → i ≤ j)) := by
  refine ⟨?_, ?_, ?_⟩
  · by_cases h12 : r1 > r2
    · by_cases h13 : r1 > r3
      · refine ⟨⟨"Miner1", r1⟩, 0, by simp [Consensus.simulatePoW, Consensus.reduce,
          Consensus.miners, h12, h13], rfl, ?_⟩
        intro i c hc
        rcases i with _ | _ | _ | i <;> simp [Consensus.miners] at hc <;> subst hc <;>
          simp <;> omega
      · refine ⟨⟨"Miner3", r3⟩, 2, by simp [Consensus.simulatePoW, Consensus.reduce,
          Consensus.miners, h12, h13], rfl, ?_⟩
        intro i c hc
        rcases i with _ | _ | _ | i <;> simp [Consensus.miners] at hc <;> subst hc <;>
          simp <;> omega
    · by_cases h23 : r2 > r3
      · refine ⟨⟨"Miner2", r2⟩, 1, by simp [Consensus.simulatePoW, Consensus.reduce,
          Consensus.miners, h12, h23], rfl, ?_⟩
        intro i c hc
        rcases i with _ | _ | _ | i <;> simp [Consensus.miners] at hc <;> subst hc <;>
          simp <;> omega
      · refine ⟨⟨"Miner3", r3⟩, 2, by simp [Consensus.simulatePoW, Consensus.reduce,
          Consensus.miners, h12, h23], rfl, ?_⟩
        intro i c hc
        rcases i with _ | _ | _ | i <;> simp [Consensus.miners] at hc <;> subst hc <;>
          simp <;> omega
  · by_cases h12 : r1 > r2
    · by_cases h13 : r1 > r3
      · refine ⟨⟨"Staker1", r1⟩, 0, by simp [Consensus.simulatePoS, Consensus.reduce,
          Consensus.stakers, h12, h13], rfl, ?_⟩
        intro i c hc
        rcases i with _ | _ | _ | i <;> simp [Consensus.stakers] at hc <;> subst hc <;>
          simp <;> omega
      · refine ⟨⟨"Staker3", r3⟩, 2, by simp [Consensus.simulatePoS, Consensus.reduce,
          Consensus.stakers, h12, h13], rfl, ?_⟩
        intro i c hc
        rcases i with _ | _ | _ | i <;> simp [Consensus.stakers] at hc <;> subst hc <;>
          simp <;> omega
    · by_cases h23 : r2 > r3
      · refine ⟨⟨"Staker2", r2⟩, 1, by simp [Consensus.simulatePoS, Consensus.reduce,
          Consensus.stakers, h12, h23], rfl, ?_⟩
        intro i c hc
        rcases i with _ | _ | _ | i <;> simp [Consensus.stakers] at hc <;> subst hc <;>
          simp <;> omega
      · refine ⟨⟨"Staker3", r3⟩, 2, by simp [Consensus.simulatePoS, Consensus.reduce,
          Consensus.stakers, h12, h23], rfl, ?_⟩
        intro i c hc
        rcases i with _ | _ | _ | i <;> simp [Consensus.stakers] at hc <;> subst hc <;>
          simp <;> omega
  · by_cases h12 : r1 > r2
    · by_cases h13 : r1 > r3
      · refine ⟨⟨"Delegate1", r1 + 1⟩, 0, by simp [Consensus.simulateDPoS, Consensus.reduce,
          Consensus.delegates, h12, h13], rfl, ?_⟩
        intro i c hc
        rcases i with _ | _ | _ | i <;> simp [Consensus.delegates] at hc <;> subst hc <;>
          simp <;> omega
      · refine ⟨⟨"Delegate3", r3 + 1⟩, 2, by simp [Consensus.simulateDPoS, Consensus.reduce,
          Consensus.delegates, h12, h13], rfl, ?_⟩
        intro i c hc
        rcases i with _ | _ | _ | i <;> simp [Consensus.delegates] at hc <;> subst hc <;>
          simp <;> omega
    · by_cases h23 : r2 > r3
      · refine ⟨⟨"Delegate2", r2 + 1⟩, 1, by simp [Consensus.simulateDPoS, Consensus.reduce,
          Consensus.delegates, h12, h23], rfl, ?_⟩
        intro i c hc
        rcases i with _ | _ | _ | i <;> simp [Consensus.delegates] at hc <;> subst hc <;>
          simp <;> omega
      · refine ⟨⟨"Delegate3", r3 + 1⟩, 2, by simp [Consensus.simulateDPoS, Consensus.reduce,
          Consensus.delegates, h12, h23], rfl, ?_⟩
        intro i c hc
        rcases i with _ | _ | _ | i <;> simp [Consensus.delegates] at hc <;> subst hc <;>
          simp <;> omega

end Ledger
